import Mathlib

/-!
Verification of the adaptive image-encoding core of the image-optimizer
repository: format capability resolution and fallback chains, the encoding
engine with format fallback, the iterative target-size search, the worker
pool sizing and fault handling, the concurrency limiter, and the per-file
lock registry.  Each definition is a shallow embedding of the corresponding
JavaScript function; browser primitives (codec invocations, sqrt on floats,
object-URL creation) are modelled as explicit oracle parameters, and exact
rational arithmetic stands in for IEEE floating point.
-/

set_option linter.unusedVariables false

namespace ImageOptimizer

/-! ## Formats (constants.js: FORMAT_DEFINITIONS, WASM_CODEC_SOURCES) -/

/-- The output formats the application knows (keys of FORMAT_DEFINITIONS other
than the pseudo-format auto, which is resolved away before encoding). -/
inductive Format where
  | jpeg
  | png
  | webp
  | avif
  | jxl
deriving DecidableEq, Repr

def formatName : Format → String
  | .jpeg => "jpeg"
  | .png => "png"
  | .webp => "webp"
  | .avif => "avif"
  | .jxl => "jxl"

structure FormatDef where
  mime : String
  ext : String
  lossless : Bool
deriving DecidableEq, Repr

/-- constants.js FORMAT_DEFINITIONS (lossless is only set on png there;
absent means false). -/
def FORMAT_DEFINITIONS : Format → FormatDef
  | .jpeg => ⟨"image/jpeg", "jpg", false⟩
  | .png => ⟨"image/png", "png", true⟩
  | .webp => ⟨"image/webp", "webp", false⟩
  | .avif => ⟨"image/avif", "avif", false⟩
  | .jxl => ⟨"image/jxl", "jxl", false⟩

/-- Object.keys(WASM_CODEC_SOURCES), in declaration order. -/
def wasmCodecFormats : List Format := [.avif, .jxl]

def DEFAULT_QUALITY : ℚ := 8/10
def MIN_QUALITY : ℚ := 5/100
def MAX_RESIZES : ℕ := 3

/-- worker: supportsQuality(format) = !FORMAT_DEFINITIONS[format]?.lossless -/
def supportsQuality (f : Format) : Bool := !(FORMAT_DEFINITIONS f).lossless

/-! ## JS Set de-duplication:  [...new Set(order)]  keeps the first occurrence
of each element, in insertion order. -/

def jsSetDedupGo {α : Type} [DecidableEq α] : List α → List α → List α
  | [], _ => []
  | a :: rest, seen => if a ∈ seen then jsSetDedupGo rest seen else a :: jsSetDedupGo rest (a :: seen)

def jsSetDedup {α : Type} [DecidableEq α] (l : List α) : List α := jsSetDedupGo l []

/-! ## FormatCapabilityResolver (formats.js) -/

/-- The runtime facts the support probes observe: the per-format native
canvas.toDataURL encode probe, the SharedArrayBuffer presence check, and the
outcome of the bounded native AVIF decode probe. -/
structure Runtime where
  nativeEncode : Format → Bool
  hasSAB : Bool
  avifDecode : Bool

structure SupportMap where
  supported : Format → Bool
  nativeSupported : Format → Bool
  nativeAvifDecoding : Bool

/-- formats.js hasSharedArrayBufferSupport(). -/
def hasSharedArrayBufferSupport (rt : Runtime) : Bool := rt.hasSAB

/-- formats.js initializeFormatSupport: probe native encode per format, force
the jpeg and png baseline, then override every WASM-backed format to
supported, except jxl when SharedArrayBuffer is missing and there is no
native jxl encoder.  applyAdvancedFormatConstraints then rechecks the same
jxl condition. -/
def initializeFormatSupport (rt : Runtime) : SupportMap :=
  let native : Format → Bool := fun f => f = .jpeg || f = .png || rt.nativeEncode f
  let sup0 : Format → Bool := native
  let sup1 : Format → Bool := fun f =>
    if f = .avif then true
    else if f = .jxl then (if !rt.hasSAB && !(native .jxl) then false else true)
    else sup0 f
  let sup2 : Format → Bool := fun f =>
    if f = .jxl && !rt.hasSAB && !(native .jxl) then false else sup1 f
  { supported := sup2, nativeSupported := native, nativeAvifDecoding := rt.avifDecode }

def isFormatSupported (m : SupportMap) (f : Format) : Bool := m.supported f

/-- formats.js getFallbackOrder: requested first, then webp, jpeg, png when
different, then JS Set de-duplication.  The isWasmPreferred branch in the
source is an empty comment block and adds nothing. -/
def getFallbackOrder (preferredFormat : Format) : List Format :=
  let order := [preferredFormat]
      ++ (if preferredFormat ≠ .webp then [.webp] else [])
      ++ (if preferredFormat ≠ .jpeg then [.jpeg] else [])
      ++ (if preferredFormat ≠ .png then [.png] else [])
  jsSetDedup order

/-! ## EncodingEngine (worker, second implementation in the worker source) -/

/-- One encode attempt result; blob holds the byte size of the produced blob
(result.blob.size in the source). -/
structure EncodeResult where
  blob : ℕ
  formatUsed : Format
  isDisplayable : Bool
deriving DecidableEq, Repr

/-- Oracle for one fixed canvas: what the underlying codec (convertToBlob for
native formats, the loaded WASM encode function for avif and jxl) produces for
a given format and quality, or the message of the exception it throws. -/
def CanvasEncoder : Type := Format → ℚ → Except String ℕ

/-- worker tryEncodeCanvas: null when the format has no mime; the avif and jxl
branches go through the WASM encoder and are marked non-displayable, the rest
through the native encoder and are marked displayable; every thrown error is
caught and turned into null so that the caller moves to the next format. -/
def tryEncodeCanvas (enc : CanvasEncoder) (format : Format) (quality : ℚ) : Option EncodeResult :=
  if (FORMAT_DEFINITIONS format).mime = "" then none
  else
    match enc format quality with
    | .ok bytes =>
        if format = .avif ∨ format = .jxl then some ⟨bytes, format, false⟩
        else some ⟨bytes, format, true⟩
    | .error _ => none

/-- worker encodeCanvasWithFallback, chain construction: for a WASM-backed
preferred format the chain is [preferred, webp, jpeg, png]; for a native
preferred format, webp, jpeg and png are appended when different, and no
WASM format appears; then JS Set de-duplication. -/
def encodeAttempts (preferredFormat : Format) : List Format :=
  let attempts :=
    if wasmCodecFormats.contains preferredFormat then
      [preferredFormat, .webp, .jpeg, .png]
    else
      [preferredFormat]
      ++ (if preferredFormat ≠ .webp then [.webp] else [])
      ++ (if preferredFormat ≠ .jpeg then [.jpeg] else [])
      ++ (if preferredFormat ≠ .png then [.png] else [])
  jsSetDedup attempts

/-- The message of the throw at the end of encodeCanvasWithFallback:
`Encoding failed for all formats: ` attempts joined by `, ` `. Details: `
errors joined by `; `. -/
def aggregatedEncodingError (allAttempts : List Format) (errors : List String) : String :=
  "Encoding failed for all formats: "
    ++ String.intercalate ", " (allAttempts.map formatName)
    ++ ". Details: " ++ String.intercalate "; " errors

/-- worker encodeCanvasWithFallback, attempt loop: first success is returned;
each failed format appends an entry to the errors list; when the chain is
exhausted the aggregated error is thrown. -/
def encodeFallbackGo (enc : CanvasEncoder) (quality : ℚ) (allAttempts : List Format) :
    List Format → List String → Except String EncodeResult
  | [], errors => .error (aggregatedEncodingError allAttempts errors)
  | f :: rest, errors =>
      match tryEncodeCanvas enc f quality with
      | some res => .ok res
      | none => encodeFallbackGo enc quality allAttempts rest (errors ++ [formatName f ++ ": returned null"])

def encodeCanvasWithFallback (enc : CanvasEncoder) (preferredFormat : Format) (quality : ℚ) :
    Except String EncodeResult :=
  encodeFallbackGo enc quality (encodeAttempts preferredFormat) (encodeAttempts preferredFormat) []

/-! ## resizeImage (worker) -/

/-- Math.round on a nonnegative value: floor(x + 1/2). -/
def jsRound (q : ℚ) : ℤ := ⌊q + 1/2⌋

def jsRoundNat (q : ℚ) : ℕ := (jsRound q).toNat

/-- worker resizeImage: shrink to fit maxW then maxH keeping aspect ratio,
then floor both canvas dimensions at 1.  A bound of none stands for Infinity
(the comparison width > Infinity is never true). -/
def resizeImage (srcW srcH : ℕ) (maxW maxH : Option ℕ) : ℕ × ℕ :=
  let s1 : ℕ × ℕ :=
    match maxW with
    | none => (srcW, srcH)
    | some mw => if srcW > mw then (mw, jsRoundNat (((srcH : ℚ) * mw) / srcW)) else (srcW, srcH)
  let s2 : ℕ × ℕ :=
    match maxH with
    | none => s1
    | some mh => if s1.2 > mh then (jsRoundNat (((s1.1 : ℚ) * mh) / s1.2), mh) else s1
  (max 1 s2.1, max 1 s2.2)

/-! ## TargetSizeSearch (worker processToTargetSize, second implementation) -/

/-- Parameters of one target-size search.  ENC gives, per canvas dimensions,
the codec oracle used by encodeCanvasWithFallback; rsqrt stands for
Math.sqrt, whose IEEE result is a rational approximation of the real root,
so it is kept as an arbitrary rational-valued parameter. -/
structure SearchParams where
  ENC : ℕ → ℕ → CanvasEncoder
  rsqrt : ℚ → ℚ
  format : Format
  targetSize : ℕ

/-- worker line: MAX_ATTEMPTS = isWasm ? 6 : 15, with
isWasm = (format === avif || format === jxl). -/
def maxAttemptsFor (format : Format) : ℕ :=
  if format = .avif ∨ format = .jxl then 6 else 15

/-- The mutable locals of the search loop (currentW/currentH, the canvas
dimensions, the quality bracket, the two counters and the two result
variables). -/
structure SearchSt where
  currentW : ℕ
  currentH : ℕ
  canvasW : ℕ
  canvasH : ℕ
  minQ : ℚ
  maxQ : ℚ
  currentQ : ℚ
  iterations : ℕ
  resizeCount : ℕ
  bestResult : Option EncodeResult
  lastResult : Option EncodeResult

/-- Log of one pass of the loop: the state observed at the encode call of
that pass, and the outcome of the encodeCanvasWithFallback call. -/
structure PassLog where
  minQ : ℚ
  maxQ : ℚ
  currentQ : ℚ
  stateW : ℕ
  stateH : ℕ
  canvasW : ℕ
  canvasH : ℕ
  resizeCount : ℕ
  outcome : Except String EncodeResult

/-- worker lines after the loop: finalRes = bestResult || result, then a
throw when no result with a blob exists. -/
def finalizeSearch (best last : Option EncodeResult) : Except String EncodeResult :=
  match best with
  | some b => .ok b
  | none =>
    match last with
    | some r => .ok r
    | none => .error "All encoding attempts failed - no valid result produced"

/-- The trace record of the pass encoding at state st. -/
def passEntry (st : SearchSt) (out : Except String EncodeResult) : PassLog :=
  ⟨st.minQ, st.maxQ, st.currentQ, st.currentW, st.currentH, st.canvasW, st.canvasH,
    st.resizeCount, out⟩

/-- minQ after the size check of one pass: a fitting result raises the floor
to the current quality (minQ = currentQ), an oversized one leaves it. -/
def bracketMinAfter (p : SearchParams) (st : SearchSt) (size : ℕ) : ℚ :=
  if size ≤ p.targetSize then st.currentQ else st.minQ

/-- maxQ after the size check of one pass: an oversized result lowers the
ceiling to the current quality, or collapses the bracket (maxQ = minQ) for a
lossless format with no quality axis. -/
def bracketMaxAfter (p : SearchParams) (st : SearchSt) (size : ℕ) : ℚ :=
  if size ≤ p.targetSize then st.maxQ
  else if supportsQuality p.format then st.currentQ else st.minQ

/-- bestResult after the size check: a fitting result becomes the best so
far. -/
def bestAfter (p : SearchParams) (st : SearchSt) (r : EncodeResult) : Option EncodeResult :=
  if r.blob ≤ p.targetSize then some r else st.bestResult

/-- The resize escape: scale = sqrt(targetSize / size) x 0.95, dimensions
floored at 100, a fresh canvas from the current one, and the quality bracket
reset to its optimistic range. -/
def resizedState (p : SearchParams) (st : SearchSt) (r : EncodeResult) : SearchSt :=
  let sc := p.rsqrt ((p.targetSize : ℚ) / (r.blob : ℚ)) * (95/100)
  let w2 := max 100 (⌊(st.currentW : ℚ) * sc⌋.toNat)
  let h2 := max 100 (⌊(st.currentH : ℚ) * sc⌋.toNat)
  let c2 := resizeImage st.canvasW st.canvasH (some w2) (some h2)
  ⟨w2, h2, c2.1, c2.2, MIN_QUALITY, 92/100, 75/100, 0, st.resizeCount + 1, none, some r⟩

/-- The binary search step: currentQ = (minQ + maxQ) / 2 on the updated
bracket, one more iteration. -/
def bisectState (p : SearchParams) (st : SearchSt) (r : EncodeResult) : SearchSt :=
  ⟨st.currentW, st.currentH, st.canvasW, st.canvasH,
    bracketMinAfter p st r.blob, bracketMaxAfter p st r.blob,
    (bracketMinAfter p st r.blob + bracketMaxAfter p st r.blob) / 2,
    st.iterations + 1, st.resizeCount, bestAfter p st r, some r⟩

/-- worker processToTargetSize main loop (while iterations < MAX_ATTEMPTS).
Each pass encodes once at the current quality; a result within the budget is
recorded as bestResult and may end the search early (close enough to the
target, quality near its ceiling, or the WASM good-enough check); an
oversized result narrows the quality bracket (collapsing it at once for a
lossless format); a converged bracket returns the best result or, when none
exists, fires the resize escape (bounded by MAX_RESIZES); otherwise the
quality is bisected. -/
def optimizationLoop (p : SearchParams) (st : SearchSt) (trace : List PassLog) :
    Except String EncodeResult × List PassLog :=
  if hIt : st.iterations < maxAttemptsFor p.format then
    match hRes : encodeCanvasWithFallback (p.ENC st.canvasW st.canvasH) p.format st.currentQ with
    | .error e => (.error e, trace ++ [passEntry st (.error e)])
    | .ok r =>
      let trace1 := trace ++ [passEntry st (.ok r)]
      if hAcc : r.blob ≤ p.targetSize ∧
          ((r.blob : ℚ) / (p.targetSize : ℚ) > 85/100 ∨ st.currentQ ≥ st.maxQ - 5/100) then
        (.ok r, trace1)
      else if hWasm : r.blob ≤ p.targetSize ∧
          ((p.format = .avif ∨ p.format = .jxl) ∧ 2 ≤ st.iterations + 1 ∧
            (r.blob : ℚ) / (p.targetSize : ℚ) > 7/10) then
        (.ok r, trace1)
      else
        if hConv : bracketMaxAfter p st r.blob - bracketMinAfter p st r.blob < 4/100 then
          match bestAfter p st r with
          | some b => (.ok b, trace1)
          | none =>
            if hRC : MAX_RESIZES ≤ st.resizeCount + 1 then
              (finalizeSearch none (some r), trace1)
            else
              optimizationLoop p (resizedState p st r) trace1
        else
          optimizationLoop p (bisectState p st r) trace1
  else
    (finalizeSearch st.bestResult st.lastResult, trace)
termination_by ((MAX_RESIZES - st.resizeCount) * maxAttemptsFor p.format
  + (maxAttemptsFor p.format - st.iterations))
decreasing_by
  · have h1 : 1 ≤ maxAttemptsFor p.format := by unfold maxAttemptsFor; split <;> norm_num
    simp only [resizedState, MAX_RESIZES] at hRC ⊢
    have h2 : st.resizeCount = 0 ∨ st.resizeCount = 1 := by omega
    rcases h2 with h2 | h2 <;> rw [h2] <;> omega
  · have h1 : 1 ≤ maxAttemptsFor p.format := by unfold maxAttemptsFor; split <;> norm_num
    simp only [bisectState]
    omega

/-- worker processToTargetSize, quality seed: bytesPerPixel heuristic.  In JS
a zero pixel count gives an Infinity (or NaN) bytes-per-pixel, so neither
branch fires and the optimistic 0.8 remains. -/
def initialQuality (targetSize totalPixels : ℕ) : ℚ :=
  if totalPixels = 0 then 8/10
  else if (targetSize : ℚ) / (totalPixels : ℚ) < 5/100 then 4/10
  else if (targetSize : ℚ) / (totalPixels : ℚ) < 1/10 then 6/10
  else 8/10

/-- Math.min(maxW / currentW, maxH / currentH) where an absent bound is
Infinity; only evaluated under the guard that some bound is exceeded, so at
least one side is finite there. -/
def boundScale (srcW srcH : ℕ) (maxW maxH : Option ℕ) : ℚ :=
  match maxW, maxH with
  | none, none => 1
  | some mw, none => (mw : ℚ) / (srcW : ℚ)
  | none, some mh => (mh : ℚ) / (srcH : ℚ)
  | some mw, some mh => min ((mw : ℚ) / (srcW : ℚ)) ((mh : ℚ) / (srcH : ℚ))

/-- worker processToTargetSize, initial dimensioning: constrain to the
maxW/maxH envelope, then the heuristic 0.6 pre-downscale for small targets
on large images. -/
def initialDims (srcW srcH : ℕ) (maxW maxH : Option ℕ) (targetSize : ℕ) : ℕ × ℕ :=
  let over : Bool := (match maxW with | none => false | some mw => decide (srcW > mw)) ||
                     (match maxH with | none => false | some mh => decide (srcH > mh))
  let d1 : ℕ × ℕ :=
    if over then
      let r := boundScale srcW srcH maxW maxH
      (jsRoundNat ((srcW : ℚ) * r), jsRoundNat ((srcH : ℚ) * r))
    else (srcW, srcH)
  if targetSize < 100 * 1024 ∧ (d1.1 > 1600 ∨ d1.2 > 1600) then
    (jsRoundNat ((d1.1 : ℚ) * (6/10)), jsRoundNat ((d1.2 : ℚ) * (6/10)))
  else d1

/-- worker processToTargetSize: initial smart resize, quality bracket seeding
and the bounded optimization loop.  The preview generation after the loop
reuses the final canvas and is not an encode call of the search. -/
def processToTargetSize (p : SearchParams) (srcW srcH : ℕ) (maxW maxH : Option ℕ) :
    Except String EncodeResult × List PassLog :=
  let d := initialDims srcW srcH maxW maxH p.targetSize
  let c := resizeImage srcW srcH (some d.1) (some d.2)
  optimizationLoop p
    { currentW := d.1, currentH := d.2, canvasW := c.1, canvasH := c.2,
      minQ := MIN_QUALITY, maxQ := 95/100,
      currentQ := initialQuality p.targetSize (d.1 * d.2),
      iterations := 0, resizeCount := 0, bestResult := none, lastResult := none } []

/-! ## WorkerPool sizing (optimize.js ensureWorkerReady) -/

def clamp (v lo hi : ℕ) : ℕ := min (max v lo) hi

/-- optimize.js ensureWorkerReady, target sizing: at least 2 and minCount,
fit to the file count up to the hardware and memory hints when files exist,
hard cap at 16 and at the hardware limit. -/
def targetPoolSize (minCount fileCount hardwareLimit memoryLimit : ℕ) : ℕ :=
  let t1 := max 2 minCount
  let t2 :=
    if 0 < fileCount then max t1 (min fileCount (min hardwareLimit memoryLimit))
    else if minCount = 0 then 2
    else t1
  min (min t2 hardwareLimit) 16

/-- optimize.js ensureWorkerReady, expansion: workers are pushed until the
pool reaches the target; the pool is never shrunk. -/
def ensureWorkerReady (poolSize minCount fileCount hardwareLimit memoryLimit : ℕ) : ℕ :=
  let t := targetPoolSize minCount fileCount hardwareLimit memoryLimit
  if poolSize < t then t else poolSize

/-! ## ConcurrencyLimiter (utils.js runWithConcurrency)

Tasks are zero-argument async operations; each is modelled by the outcome it
settles with.  The adversarial schedule chooses, at every suspension point
(the await of Promise.race in the loop, and each settlement during the final
Promise.all), which in-flight task settles next.  A fulfilled task removes
itself from the executing list (the then-handler splice); a rejected task
makes the awaited race reject, which the enclosing async function propagates.
-/

/-- Promise.all over the settled results array: the values in original
submission order when every promise fulfilled, the rejection otherwise. -/
def promiseAll {ε α : Type} : List (Except ε α) → Except ε (List α)
  | [] => .ok []
  | .ok a :: rest => (promiseAll rest).map (a :: ·)
  | .error e :: _ => .error e

/-- The settlement phase of Promise.all(results) after the loop: remaining
in-flight tasks settle in schedule order; the first rejection to settle is
reported, and if every one fulfils, all promises are settled. -/
def drainAll {ε α : Type} (sched : ℕ → ℕ) (t : ℕ) (executing : List (ℕ × Except ε α)) : Option ε :=
  match executing with
  | [] => none
  | e :: rest =>
    match ((e :: rest).get ⟨sched t % (e :: rest).length, Nat.mod_lt _ (Nat.succ_pos _)⟩).2 with
    | .error err => some err
    | .ok _ => drainAll sched (t + 1) ((e :: rest).eraseIdx (sched t % (e :: rest).length))
termination_by executing.length
decreasing_by
  have hj : sched t % (e :: rest).length < (e :: rest).length := Nat.mod_lt _ (Nat.succ_pos _)
  simp only [List.length_eraseIdx, List.length_cons] at hj ⊢
  simp only [if_pos hj]
  omega

/-- utils.js runWithConcurrency, main loop: start each task in submission
order, record its promise in results and executing, and await
Promise.race(executing) whenever executing has reached the limit; afterwards
return Promise.all(results), which yields the values in original submission
order.  Also returns the list of started task indices and the largest number
of simultaneously unsettled tasks. -/
def runLoop {ε α : Type} (sched : ℕ → ℕ) (tasks : List (Except ε α)) (limit : ℕ) :
    List (ℕ × Except ε α) → List (ℕ × Except ε α) → ℕ → List ℕ → ℕ →
    Except ε (List α) × List ℕ × ℕ
  | [], executing, t, starts, maxIF =>
      (match drainAll sched t executing with
       | some e => .error e
       | none => promiseAll tasks, starts, maxIF)
  | task :: rest, executing, t, starts, maxIF =>
      let executing1 := executing ++ [task]
      let starts1 := starts ++ [task.1]
      let maxIF1 := max maxIF executing1.length
      if limit ≤ executing1.length then
        let j := sched t % executing1.length
        match (executing1.get ⟨j, Nat.mod_lt _ (by show 0 < (executing ++ [task]).length; simp)⟩).2 with
        | .error e => (.error e, starts1, maxIF1)
        | .ok _ => runLoop sched tasks limit rest (executing1.eraseIdx j) (t + 1) starts1 maxIF1
      else runLoop sched tasks limit rest executing1 t starts1 maxIF1

def runWithConcurrency {ε α : Type} (tasks : List (Except ε α)) (limit : ℕ) (sched : ℕ → ℕ) :
    Except ε (List α) × List ℕ × ℕ :=
  runLoop sched tasks limit tasks.enum [] 0 [] 0

/-! ## FileLockRegistry (state.js) -/

def acquireFileLock (index : ℕ) (locks : Finset ℕ) : Bool × Finset ℕ :=
  if index ∈ locks then (false, locks) else (true, insert index locks)

def releaseFileLock (index : ℕ) (locks : Finset ℕ) : Finset ℕ := locks.erase index

def isFileLocked (index : ℕ) (locks : Finset ℕ) : Bool := index ∈ locks

/-! ## WorkerPool fault handling (optimize.js handleWorkerError) -/

/-- Bookkeeping owned by the pool: the worker list (workers are identified by
an id), the insertion-ordered messageWorkerMap and the pendingPromises keys. -/
structure PoolState where
  workers : List ℕ
  msgMap : List (ℕ × ℕ)
  pending : List ℕ

def workerFaultMessage (errMsg : String) : String := "Worker error: " ++ errMsg

/-- optimize.js handleWorkerError, rejection loop over messageWorkerMap: for
each entry owned by the faulted worker, hasPendingWork is set and, when the
id is still pending, both table entries are deleted and the call is rejected
with the worker-fault message.  Returns the surviving map, the surviving
pending set, the emitted rejections and the hasPendingWork flag. -/
def rejectEntries (faulted : ℕ) (errMsg : String) :
    List (ℕ × ℕ) → List ℕ → List (ℕ × ℕ) × List ℕ × List (ℕ × String) × Bool
  | [], pending => ([], pending, [], false)
  | (mid, w) :: rest, pending =>
      if w = faulted then
        if mid ∈ pending then
          let r := rejectEntries faulted errMsg rest (pending.erase mid)
          (r.1, r.2.1, (mid, workerFaultMessage errMsg) :: r.2.2.1, true)
        else
          let r := rejectEntries faulted errMsg rest pending
          ((mid, w) :: r.1, r.2.1, r.2.2.1, true)
      else
        let r := rejectEntries faulted errMsg rest pending
        ((mid, w) :: r.1, r.2.1, r.2.2.1, r.2.2.2)

/-- optimize.js handleWorkerError, replacement: the faulted worker is looked
up in the pool (workers.indexOf) and, when present, terminated and replaced
in its slot by a fresh worker; nothing happens when it is absent. -/
def replaceWorkerAt (faulted fresh : ℕ) : List ℕ → List ℕ
  | [] => []
  | w :: rest => if w = faulted then fresh :: rest else w :: replaceWorkerAt faulted fresh rest

/-- optimize.js handleWorkerError: reject the faulted worker's pending calls,
then replace the worker in the pool.  The Bool is hasPendingWork; when it is
false the fault is only logged as a non-critical warning. -/
def handleWorkerError (st : PoolState) (faulted fresh : ℕ) (errMsg : String) :
    PoolState × List (ℕ × String) × Bool :=
  let r := rejectEntries faulted errMsg st.msgMap st.pending
  ({ workers := replaceWorkerAt faulted fresh st.workers, msgMap := r.1, pending := r.2.1 },
    r.2.2.1, r.2.2.2)

/-! ## finalizeOptimization (optimize.js) -/

/-- Main-thread state touched by finalizeOptimization.  Files, blobs and
URLs are identified by numbers; a JS array slot holding null or undefined is
none. -/
structure MainState where
  uploadedFiles : ℕ → Option ℕ
  optimizedImages : ℕ → Option ℕ
  optimizedPreviews : ℕ → Option ℕ

/-- The worker reply consumed by finalizeOptimization. -/
structure WorkerReply where
  blob : ℕ
  previewBlob : Option ℕ
  formatUsed : Format
  isDisplayable : Bool

/-- optimize.js finalizeOptimization: discard the result when the file at the
index was removed or replaced meanwhile; otherwise store the blob and a
preview URL and call updateUIWithResult.  createUrl models
URL.createObjectURL; the Option ℕ output is the index of the emitted UI
update, none when the result was discarded. -/
def finalizeOptimization (createUrl : ℕ → ℕ) (st : MainState) (index fileId : ℕ)
    (result : WorkerReply) : MainState × Option ℕ :=
  if st.uploadedFiles index ≠ some fileId then (st, none)
  else
    let previewUrl :=
      if result.previewBlob.isSome ∧ result.isDisplayable = false then
        createUrl (result.previewBlob.getD 0)
      else createUrl result.blob
    ({ st with
        optimizedImages := Function.update st.optimizedImages index (some result.blob),
        optimizedPreviews := Function.update st.optimizedPreviews index (some previewUrl) },
      some index)

/-! ## Lock discipline of the batch tasks (main.js startOptimization and
retryOptimization) -/

inductive TaskEnd where
  | skipped
  | succeeded
  | failed
deriving DecidableEq, Repr

/-- Whether the awaited optimization fulfils or throws. -/
inductive OptOutcome where
  | ok
  | threw
deriving DecidableEq, Repr

/-- main.js startOptimization, one batch task: acquire the lock for the index
or skip; run the optimization inside try/catch (a throw marks the card
failed); the finally block revokes the temporary URL and releases the lock. -/
def batchTask (index : ℕ) (locks : Finset ℕ) (outcome : OptOutcome) : Finset ℕ × TaskEnd :=
  let a := acquireFileLock index locks
  if a.1 = false then (a.2, .skipped)
  else
    match outcome with
    | .ok => (releaseFileLock index a.2, .succeeded)
    | .threw => (releaseFileLock index a.2, .failed)

/-- main.js retryOptimization: bail out while a batch runs or when the file
is gone; acquire the lock or skip; run the optimization inside try/catch;
the finally block releases the lock. -/
def retryOptimization (index : ℕ) (locks : Finset ℕ) (isOptimizing : Bool) (file : Option ℕ)
    (outcome : OptOutcome) : Finset ℕ × TaskEnd :=
  if isOptimizing then (locks, .skipped)
  else
    match file with
    | none => (locks, .skipped)
    | some _ =>
      let a := acquireFileLock index locks
      if a.1 = false then (a.2, .skipped)
      else
        match outcome with
        | .ok => (releaseFileLock index a.2, .succeeded)
        | .threw => (releaseFileLock index a.2, .failed)

/-! # Theorems -/

/-! ## C7: FileLockRegistry -/

/-- C7: acquire(i) returns true and marks i held iff i was not already held,
and returns false leaving the lock set unchanged otherwise; release(i) is
idempotent; acquire(i) twice without an intervening release returns true then
false; release(i) followed by acquire(i) returns true again. -/
theorem fileLockRegistry_acquire_release_spec (i : ℕ) (s : Finset ℕ) :
    ((acquireFileLock i s).1 = true ↔ i ∉ s)
    ∧ (i ∉ s → (acquireFileLock i s).2 = insert i s)
    ∧ ((acquireFileLock i s).1 = false → (acquireFileLock i s).2 = s)
    ∧ releaseFileLock i (releaseFileLock i s) = releaseFileLock i s
    ∧ ((acquireFileLock i s).1 = true → (acquireFileLock i (acquireFileLock i s).2).1 = false)
    ∧ (acquireFileLock i (releaseFileLock i s)).1 = true := by
  unfold acquireFileLock releaseFileLock
  by_cases h : i ∈ s <;>
    simp [h, Finset.erase_idem, Finset.erase_eq_of_not_mem, Finset.mem_insert]

/-- C7 witness: concrete instantiation at index 0 and the empty lock set. -/
theorem fileLockRegistry_acquire_release_spec_witness :
    (acquireFileLock 0 ∅).2 = insert 0 ∅
    ∧ (acquireFileLock 0 (acquireFileLock 0 ∅).2).1 = false := by
  refine ⟨(fileLockRegistry_acquire_release_spec 0 ∅).2.1 (by simp), ?_⟩
  exact (fileLockRegistry_acquire_release_spec 0 ∅).2.2.2.2.1
    ((fileLockRegistry_acquire_release_spec 0 ∅).1.mpr (by simp))

/-! ## C5: worker pool sizing -/

/-- C5 counterexample: on a runtime whose hardware concurrency hint is 1, a
pool requested with minCount = 0 and no items queued gets target size
min(2, hardwareLimit) = 1, not exactly 2, because the final hard cap also
clamps below the base capacity of 2. -/
theorem poolSize_hwOne_counterexample :
    ensureWorkerReady 0 0 0 1 4 = 1 ∧ ensureWorkerReady 0 0 0 1 4 ≠ 2 := by
  decide

/-- C5 amended: the target pool size equals
clamp(max(2, requestedMinimum, min(itemCount, hardwareHint, memoryHint)), 2,
min(16, hardwareHint)) where clamp(v, lo, hi) = min(max(v, lo), hi); a pool
requested with minCount = 0 and no items queued has size exactly 2 whenever
the hardware hint is at least 2 (with a smaller hint the hard cap wins); a
pool requested with itemCount = 10, hardwareHint = 4, memoryHint = 8 has
size 4; and the pool only grows, never shrinks. -/
theorem workerPool_sizing_spec (minCount fileCount hw mem poolSize : ℕ) :
    targetPoolSize minCount fileCount hw mem
      = clamp (max 2 (max minCount (min fileCount (min hw mem)))) 2 (min 16 hw)
    ∧ (fileCount = 0 → minCount = 0 → 2 ≤ hw → ensureWorkerReady 0 minCount fileCount hw mem = 2)
    ∧ ensureWorkerReady 0 0 10 4 8 = 4
    ∧ poolSize ≤ ensureWorkerReady poolSize minCount fileCount hw mem := by
  simp only [ensureWorkerReady, targetPoolSize, clamp]
  refine ⟨?_, ?_, by decide, ?_⟩
  · split_ifs <;> omega
  · intro h1 h2 h3
    subst h1; subst h2
    split_ifs <;> omega
  · split_ifs <;> omega

/-- C5 witness: hypothesis discharge at fileCount = 0, minCount = 0, a
hardware hint of 8 and a memory hint of 4. -/
theorem workerPool_sizing_spec_witness :
    ensureWorkerReady 0 0 0 8 4 = 2 :=
  (workerPool_sizing_spec 0 0 8 4 0).2.1 rfl rfl (by norm_num)

/-! ## C3: fallback order -/

/-- C3 counterexample: on a runtime lacking shared memory and lacking any
native jxl support, jxl is marked unsupported by the resolver, yet
getFallbackOrder("jxl") still returns the unfiltered chain
[jxl, webp, jpeg, png]: the function performs no support filtering, so the
chain is not equal to the supported-only filtering the claim states. -/
theorem getFallbackOrder_jxl_not_filtered :
    isFormatSupported
        (initializeFormatSupport ⟨fun f => !(f = .avif || f = .jxl), false, false⟩) .jxl = false
    ∧ getFallbackOrder .jxl = [.jxl, .webp, .jpeg, .png]
    ∧ getFallbackOrder .jxl
        ≠ ([Format.jxl, .webp, .jpeg, .png].filter (fun f =>
            isFormatSupported
              (initializeFormatSupport ⟨fun f => !(f = .avif || f = .jxl), false, false⟩) f)) := by
  decide

/-- C3 amended: for every requested format the fallback chain is
de-duplicated and requested-first, always contains jpeg, equals
[requested, webp, jpeg, png] when the requested format is WASM-backed
(regardless of runtime support: getFallbackOrder performs no filtering by
currently-supported formats, so on a runtime lacking shared memory and
native jxl the chain for jxl still starts with the unsupported jxl itself),
contains no WASM-backed format when the requested format is native, and
agrees with the chain the worker encoding engine builds. -/
theorem getFallbackOrder_spec (f : Format) :
    (getFallbackOrder f).Nodup
    ∧ (getFallbackOrder f).head? = some f
    ∧ Format.jpeg ∈ getFallbackOrder f
    ∧ (wasmCodecFormats.contains f = true → getFallbackOrder f = [f, .webp, .jpeg, .png])
    ∧ (wasmCodecFormats.contains f = false →
        ∀ g ∈ getFallbackOrder f, wasmCodecFormats.contains g = false)
    ∧ encodeAttempts f = getFallbackOrder f := by
  rcases f <;> decide

/-- C3 witness: hypothesis discharge at the WASM-backed request avif and the
native request jpeg. -/
theorem getFallbackOrder_spec_witness :
    getFallbackOrder .avif = [.avif, .webp, .jpeg, .png]
    ∧ ∀ g ∈ getFallbackOrder .jpeg, wasmCodecFormats.contains g = false :=
  ⟨(getFallbackOrder_spec .avif).2.2.2.1 (by decide),
   (getFallbackOrder_spec .jpeg).2.2.2.2.1 (by decide)⟩

/-! ## C9: stale results are discarded -/

/-- C9: when a result arrives for index i after the file at i has been
removed (slot empty) or replaced (a different file object), the finalizer
discards it: the state including optimizedImages and optimizedPreviews is
unchanged and no UI update for that index is emitted. -/
theorem finalizeOptimization_discards_stale (createUrl : ℕ → ℕ) (st : MainState)
    (index fileId : ℕ) (result : WorkerReply)
    (h : st.uploadedFiles index = none
      ∨ ∃ f2, st.uploadedFiles index = some f2 ∧ f2 ≠ fileId) :
    finalizeOptimization createUrl st index fileId result = (st, none)
    ∧ (finalizeOptimization createUrl st index fileId result).1.optimizedImages index
        = st.optimizedImages index
    ∧ (finalizeOptimization createUrl st index fileId result).1.optimizedPreviews index
        = st.optimizedPreviews index
    ∧ (finalizeOptimization createUrl st index fileId result).2 = none := by
  have hne : st.uploadedFiles index ≠ some fileId := by
    rcases h with h | ⟨f2, h2, h3⟩
    · simp [h]
    · simp [h2]
      exact h3
  unfold finalizeOptimization
  simp [hne]

/-- C9 witness: a result for index 0 arriving after the slot was emptied. -/
theorem finalizeOptimization_discards_stale_witness :
    finalizeOptimization (fun b => b)
      ⟨fun _ => none, fun _ => none, fun _ => none⟩ 0 7 ⟨10, none, .jpeg, true⟩
      = (⟨fun _ => none, fun _ => none, fun _ => none⟩, none) :=
  (finalizeOptimization_discards_stale (fun b => b)
    ⟨fun _ => none, fun _ => none, fun _ => none⟩ 0 7 ⟨10, none, .jpeg, true⟩
    (Or.inl rfl)).1

/-! ## C10: every task that acquired a lock releases it -/

/-- C10: a batch-optimization task and a retry operation release the
file-index lock they acquired when they settle, whether the optimization
succeeded or threw: whenever the task did not skip (which is exactly when it
acquired the lock), the index is unlocked afterwards and the lock set is
restored, so no lock is leaked on error. -/
theorem task_lock_release_spec (i : ℕ) (locks : Finset ℕ) (outcome : OptOutcome)
    (isOpt : Bool) (file : Option ℕ) :
    ((batchTask i locks outcome).2 ≠ .skipped ↔ i ∉ locks)
    ∧ (i ∉ locks → (batchTask i locks outcome).1 = locks
        ∧ isFileLocked i (batchTask i locks outcome).1 = false)
    ∧ ((retryOptimization i locks isOpt file outcome).2 ≠ .skipped →
        (retryOptimization i locks isOpt file outcome).1 = locks
        ∧ isFileLocked i (retryOptimization i locks isOpt file outcome).1 = false)
    ∧ (i ∈ locks → (batchTask i locks outcome).1 = locks
        ∧ (retryOptimization i locks isOpt file outcome).1 = locks) := by
  unfold batchTask retryOptimization acquireFileLock releaseFileLock isFileLocked
  by_cases h : i ∈ locks
  · rcases outcome <;> rcases isOpt <;> rcases file <;> simp [h]
  · have h2 : (insert i locks).erase i = locks := Finset.erase_insert h
    rcases outcome <;> rcases isOpt <;> rcases file <;> simp [h, h2]

/-- C10 witness: index 3, empty lock set, a throwing optimization, a live
file: both the batch task and the retry end with the index unlocked. -/
theorem task_lock_release_spec_witness :
    (batchTask 3 ∅ .threw).1 = ∅
    ∧ isFileLocked 3 (batchTask 3 ∅ .threw).1 = false
    ∧ (retryOptimization 3 ∅ false (some 5) .threw).1 = ∅ := by
  refine ⟨((task_lock_release_spec 3 ∅ .threw false (some 5)).2.1 (by simp)).1,
    ((task_lock_release_spec 3 ∅ .threw false (some 5)).2.1 (by simp)).2,
    ((task_lock_release_spec 3 ∅ .threw false (some 5)).2.2.1 ?_).1⟩
  decide

/-! ## C8: worker fault handling -/

theorem rejectEntries_pending_subset (f : ℕ) (msg : String) :
    ∀ (m : List (ℕ × ℕ)) (pending : List ℕ) (x : ℕ),
      x ∈ (rejectEntries f msg m pending).2.1 → x ∈ pending := by
  intro m
  induction m with
  | nil => intro pending x hx; simpa [rejectEntries] using hx
  | cons e rest ih =>
      intro pending x hx
      obtain ⟨mid, w⟩ := e
      by_cases hw : w = f
      · by_cases hp : mid ∈ pending
        · simp only [rejectEntries, hw, hp, if_true] at hx
          exact List.mem_of_mem_erase (ih _ _ hx)
        · simp only [rejectEntries, hw, hp, if_true, if_false] at hx
          exact ih _ _ hx
      · simp only [rejectEntries, hw, if_false] at hx
        exact ih _ _ hx

theorem rejectEntries_map_subset (f : ℕ) (msg : String) :
    ∀ (m : List (ℕ × ℕ)) (pending : List ℕ) (x : ℕ × ℕ),
      x ∈ (rejectEntries f msg m pending).1 → x ∈ m := by
  intro m
  induction m with
  | nil => intro pending x hx; simpa [rejectEntries] using hx
  | cons e rest ih =>
      intro pending x hx
      obtain ⟨mid, w⟩ := e
      by_cases hw : w = f
      · by_cases hp : mid ∈ pending
        · simp only [rejectEntries, hw, hp, if_true] at hx
          exact List.mem_cons_of_mem _ (ih _ _ hx)
        · simp only [rejectEntries, hw, hp, if_true, if_false, List.mem_cons] at hx
          rcases hx with hx | hx
          · rw [hx, hw]; exact List.mem_cons_self _ _
          · exact List.mem_cons_of_mem _ (ih _ _ hx)
      · simp only [rejectEntries, hw, if_false, List.mem_cons] at hx
        rcases hx with hx | hx
        · rw [hx]; exact List.mem_cons_self _ _
        · exact List.mem_cons_of_mem _ (ih _ _ hx)

theorem rejectEntries_rejects_pending (f : ℕ) (msg : String) :
    ∀ (m : List (ℕ × ℕ)) (pending : List ℕ),
      (m.map Prod.fst).Nodup → pending.Nodup →
      ∀ mid, (mid, f) ∈ m → mid ∈ pending →
        (mid, workerFaultMessage msg) ∈ (rejectEntries f msg m pending).2.2.1
        ∧ mid ∉ (rejectEntries f msg m pending).2.1
        ∧ ∀ w, (mid, w) ∉ (rejectEntries f msg m pending).1 := by
  intro m
  induction m with
  | nil => intro pending _ _ mid hm; simp at hm
  | cons e rest ih =>
      intro pending hids hp mid hm hpend
      obtain ⟨a, w⟩ := e
      have hids2 : (a :: rest.map Prod.fst).Nodup := hids
      have hanotin : a ∉ rest.map Prod.fst := (List.nodup_cons.mp hids2).1
      have hidsrest : (rest.map Prod.fst).Nodup := (List.nodup_cons.mp hids2).2
      by_cases hw : w = f
      · subst hw
        by_cases hpa : a ∈ pending
        · simp only [rejectEntries, hpa, if_true]
          by_cases hma : mid = a
          · subst hma
            refine ⟨List.mem_cons_self _ _, ?_, ?_⟩
            · intro hbad
              exact (List.Nodup.not_mem_erase hp)
                (rejectEntries_pending_subset w msg rest (pending.erase mid) mid hbad)
            · intro w2 hbad
              have hm2 : (mid, w2) ∈ rest := rejectEntries_map_subset w msg rest _ _ hbad
              exact hanotin (List.mem_map_of_mem Prod.fst hm2)
          · have hmrest : (mid, w) ∈ rest := by
              rcases List.mem_cons.mp hm with h | h
              · exact absurd (congrArg Prod.fst h) hma
              · exact h
            have hmp : mid ∈ pending.erase a := (List.mem_erase_of_ne hma).mpr hpend
            obtain ⟨h1, h2, h3⟩ := ih _ hidsrest (hp.erase a) mid hmrest hmp
            exact ⟨List.mem_cons_of_mem _ h1, h2, h3⟩
        · simp only [rejectEntries, hpa, if_true, if_false]
          have hma : mid ≠ a := by
            rintro rfl
            exact hpa hpend
          have hmrest : (mid, w) ∈ rest := by
            rcases List.mem_cons.mp hm with h | h
            · exact absurd (congrArg Prod.fst h) hma
            · exact h
          obtain ⟨h1, h2, h3⟩ := ih _ hidsrest hp mid hmrest hpend
          refine ⟨h1, h2, ?_⟩
          intro w2
          simp only [List.mem_cons]
          rintro (h | h)
          · exact hma (congrArg Prod.fst h)
          · exact h3 w2 h
      · simp only [rejectEntries, hw, if_false]
        have hma : mid ≠ a := by
          rintro rfl
          rcases List.mem_cons.mp hm with h | h
          · exact hw (congrArg Prod.snd h).symm
          · exact hanotin (List.mem_map_of_mem Prod.fst h)
        have hmrest : (mid, f) ∈ rest := by
          rcases List.mem_cons.mp hm with h | h
          · exact absurd (congrArg Prod.fst h) hma
          · exact h
        obtain ⟨h1, h2, h3⟩ := ih _ hidsrest hp mid hmrest hpend
        refine ⟨h1, h2, ?_⟩
        intro w2
        simp only [List.mem_cons]
        rintro (h | h)
        · exact hma (congrArg Prod.fst h)
        · exact h3 w2 h

theorem rejectEntries_rejections_from_pending (f : ℕ) (msg : String) :
    ∀ (m : List (ℕ × ℕ)) (pending : List ℕ) (mid : ℕ) (s : String),
      (mid, s) ∈ (rejectEntries f msg m pending).2.2.1 →
      (mid, f) ∈ m ∧ mid ∈ pending ∧ s = workerFaultMessage msg := by
  intro m
  induction m with
  | nil => intro pending mid s h; simp [rejectEntries] at h
  | cons e rest ih =>
      intro pending mid s h
      obtain ⟨a, w⟩ := e
      by_cases hw : w = f
      · by_cases hpa : a ∈ pending
        · simp only [rejectEntries, hw, hpa, if_true, List.mem_cons] at h
          rcases h with h | h
          · have h1 : mid = a := congrArg Prod.fst h
            have h2 : s = workerFaultMessage msg := congrArg Prod.snd h
            subst h1
            refine ⟨?_, hpa, h2⟩
            rw [← hw]
            exact List.mem_cons_self _ _
          · obtain ⟨h1, h2, h3⟩ := ih _ mid s h
            exact ⟨List.mem_cons_of_mem _ h1, List.mem_of_mem_erase h2, h3⟩
        · simp only [rejectEntries, hw, hpa, if_true, if_false] at h
          obtain ⟨h1, h2, h3⟩ := ih _ mid s h
          exact ⟨List.mem_cons_of_mem _ h1, h2, h3⟩
      · simp only [rejectEntries, hw, if_false] at h
        obtain ⟨h1, h2, h3⟩ := ih _ mid s h
        exact ⟨List.mem_cons_of_mem _ h1, h2, h3⟩

theorem rejectEntries_no_fault_id (f : ℕ) (msg : String) :
    ∀ (m : List (ℕ × ℕ)) (pending : List ℕ),
      (∀ e ∈ m, e.2 ≠ f) → rejectEntries f msg m pending = (m, pending, [], false) := by
  intro m
  induction m with
  | nil => intro pending _; simp [rejectEntries]
  | cons e rest ih =>
      intro pending hall
      obtain ⟨a, w⟩ := e
      have hw : w ≠ f := hall (a, w) (List.mem_cons_self _ _)
      have hrest : ∀ e ∈ rest, e.2 ≠ f := fun e he => hall e (List.mem_cons_of_mem _ he)
      simp [rejectEntries, hw, ih pending hrest]

theorem rejectEntries_fault_flag (f : ℕ) (msg : String) :
    ∀ (m : List (ℕ × ℕ)) (pending : List ℕ),
      (∃ e ∈ m, e.2 = f) → (rejectEntries f msg m pending).2.2.2 = true := by
  intro m
  induction m with
  | nil => intro pending h; simp at h
  | cons e rest ih =>
      intro pending h
      obtain ⟨a, w⟩ := e
      by_cases hw : w = f
      · by_cases hpa : a ∈ pending <;> simp [rejectEntries, hw, hpa]
      · have h2 : ∃ e ∈ rest, e.2 = f := by
          rcases h with ⟨e2, he2, hf2⟩
          rcases List.mem_cons.mp he2 with h3 | h3
          · rw [h3] at hf2
            exact absurd hf2 hw
          · exact ⟨e2, h3, hf2⟩
        simp [rejectEntries, hw, ih pending h2]

theorem replaceWorkerAt_length (a b : ℕ) :
    ∀ l : List ℕ, (replaceWorkerAt a b l).length = l.length := by
  intro l
  induction l with
  | nil => rfl
  | cons w rest ih => by_cases h : w = a <;> simp [replaceWorkerAt, h, ih]

theorem replaceWorkerAt_removes (a b : ℕ) (hba : b ≠ a) :
    ∀ l : List ℕ, l.Nodup → a ∈ l →
      a ∉ replaceWorkerAt a b l
      ∧ ∃ k, ∃ hk : k < l.length, l.get ⟨k, hk⟩ = a ∧ replaceWorkerAt a b l = l.set k b := by
  intro l
  induction l with
  | nil => intro _ h; simp at h
  | cons w rest ih =>
      intro hnd hmem
      by_cases h : w = a
      · have hwa : w ∉ rest := (List.nodup_cons.mp hnd).1
        have hrw : replaceWorkerAt a b (w :: rest) = b :: rest := by
          simp [replaceWorkerAt, h]
        refine ⟨?_, 0, by simp, h, by rw [hrw]; rfl⟩
        rw [hrw]
        simp only [List.mem_cons]
        rintro (h2 | h2)
        · exact hba h2.symm
        · exact hwa (by rw [h]; exact h2)
      · have hmem2 : a ∈ rest := by
          rcases List.mem_cons.mp hmem with h2 | h2
          · exact absurd h2.symm h
          · exact h2
        obtain ⟨h1, k, hk, h2, h3⟩ := ih (List.nodup_cons.mp hnd).2 hmem2
        refine ⟨?_, k + 1, by simpa using Nat.succ_lt_succ hk, by simpa using h2, ?_⟩
        · simp only [replaceWorkerAt, if_neg h, List.mem_cons]
          rintro (h4 | h4)
          · exact h h4.symm
          · exact h1 h4
        · simp [replaceWorkerAt, h, h3]

/-- C8: when a worker faults, every pending call assigned to that worker is
rejected with the worker-fault error message and removed from both
bookkeeping tables (rejections arise from nothing else); the faulted worker
is replaced by the fresh one at the same pool slot so the live worker count
is unchanged; and a fault on a worker with no pending work rejects nothing,
leaves the tables untouched and reports hasPendingWork = false, in which
case the handler only logs a non-critical warning. -/
theorem handleWorkerError_spec (st : PoolState) (faulted fresh : ℕ) (errMsg : String)
    (hids : (st.msgMap.map Prod.fst).Nodup) (hpend : st.pending.Nodup)
    (hw : st.workers.Nodup) (hfresh : fresh ≠ faulted) :
    (∀ mid, (mid, faulted) ∈ st.msgMap → mid ∈ st.pending →
        (mid, workerFaultMessage errMsg) ∈ (handleWorkerError st faulted fresh errMsg).2.1
        ∧ mid ∉ (handleWorkerError st faulted fresh errMsg).1.pending
        ∧ ∀ w, (mid, w) ∉ (handleWorkerError st faulted fresh errMsg).1.msgMap)
    ∧ (∀ mid s, (mid, s) ∈ (handleWorkerError st faulted fresh errMsg).2.1 →
        (mid, faulted) ∈ st.msgMap ∧ mid ∈ st.pending ∧ s = workerFaultMessage errMsg)
    ∧ (handleWorkerError st faulted fresh errMsg).1.workers.length = st.workers.length
    ∧ (faulted ∈ st.workers →
        faulted ∉ (handleWorkerError st faulted fresh errMsg).1.workers
        ∧ ∃ k, ∃ hk : k < st.workers.length,
            st.workers.get ⟨k, hk⟩ = faulted
            ∧ (handleWorkerError st faulted fresh errMsg).1.workers = st.workers.set k fresh)
    ∧ ((∀ e ∈ st.msgMap, e.2 ≠ faulted) →
        (handleWorkerError st faulted fresh errMsg).2.2 = false
        ∧ (handleWorkerError st faulted fresh errMsg).2.1 = []
        ∧ (handleWorkerError st faulted fresh errMsg).1.msgMap = st.msgMap
        ∧ (handleWorkerError st faulted fresh errMsg).1.pending = st.pending)
    ∧ ((∃ e ∈ st.msgMap, e.2 = faulted) →
        (handleWorkerError st faulted fresh errMsg).2.2 = true) := by
  unfold handleWorkerError
  refine ⟨?_, ?_, replaceWorkerAt_length _ _ _, ?_, ?_, ?_⟩
  · intro mid h1 h2
    exact rejectEntries_rejects_pending faulted errMsg st.msgMap st.pending hids hpend mid h1 h2
  · intro mid s h
    exact rejectEntries_rejections_from_pending faulted errMsg st.msgMap st.pending mid s h
  · intro h
    exact replaceWorkerAt_removes faulted fresh hfresh st.workers hw h
  · intro h
    simp [rejectEntries_no_fault_id faulted errMsg st.msgMap st.pending h]
  · intro h
    simpa using rejectEntries_fault_flag faulted errMsg st.msgMap st.pending h

/-- C8 witness: a two-worker pool in which worker 10 owns the pending call 0
and then faults; the call is rejected, the tables are emptied of it, and
worker 12 takes slot 0. -/
theorem handleWorkerError_spec_witness :
    ((0, workerFaultMessage "crash") ∈ (handleWorkerError ⟨[10, 11], [(0, 10)], [0]⟩ 10 12 "crash").2.1)
    ∧ (handleWorkerError ⟨[10, 11], [(0, 10)], [0]⟩ 10 12 "crash").1.workers.length = 2
    ∧ (10 ∉ (handleWorkerError ⟨[10, 11], [(0, 10)], [0]⟩ 10 12 "crash").1.workers) := by
  have h := handleWorkerError_spec ⟨[10, 11], [(0, 10)], [0]⟩ 10 12 "crash"
    (by decide) (by decide) (by decide) (by decide)
  exact ⟨(h.1 0 (by decide) (by decide)).1, h.2.2.1, (h.2.2.2.1 (by decide)).1⟩

/-! ## C2: encoding engine fallback -/

theorem encodeFallbackGo_ok_first (enc : CanvasEncoder) (q : ℚ) (all : List Format) :
    ∀ (rest : List Format) (errors : List String) (r : EncodeResult),
      encodeFallbackGo enc q all rest errors = .ok r →
      ∃ pre f post, rest = pre ++ f :: post
        ∧ tryEncodeCanvas enc f q = some r
        ∧ ∀ g ∈ pre, tryEncodeCanvas enc g q = none := by
  intro rest
  induction rest with
  | nil => intro errors r h; simp [encodeFallbackGo] at h
  | cons f fr ih =>
      intro errors r h
      cases htry : tryEncodeCanvas enc f q with
      | some res =>
          simp only [encodeFallbackGo, htry] at h
          refine ⟨[], f, fr, by simp, ?_, by simp⟩
          rw [htry]
          exact congrArg some (Except.ok.inj h)
      | none =>
          simp only [encodeFallbackGo, htry] at h
          obtain ⟨pre, g, post, h1, h2, h3⟩ := ih _ r h
          refine ⟨f :: pre, g, post, by simp [h1], h2, ?_⟩
          intro g2 hg2
          rcases List.mem_cons.mp hg2 with hg2 | hg2
          · rw [hg2]; exact htry
          · exact h3 g2 hg2

theorem encodeFallbackGo_error_iff (enc : CanvasEncoder) (q : ℚ) (all : List Format) :
    ∀ (rest : List Format) (errors : List String),
      (∃ e, encodeFallbackGo enc q all rest errors = .error e)
        ↔ ∀ f ∈ rest, tryEncodeCanvas enc f q = none := by
  intro rest
  induction rest with
  | nil => intro errors; simp [encodeFallbackGo]
  | cons f fr ih =>
      intro errors
      cases htry : tryEncodeCanvas enc f q with
      | some res =>
          simp only [encodeFallbackGo, htry]
          constructor
          · rintro ⟨e, he⟩; cases he
          · intro h
            have := h f (List.mem_cons_self _ _)
            rw [htry] at this
            cases this
      | none =>
          simp only [encodeFallbackGo, htry]
          constructor
          · rintro ⟨e, he⟩ g hg
            rcases List.mem_cons.mp hg with hg | hg
            · rw [hg]; exact htry
            · exact ((ih _).mp ⟨e, he⟩) g hg
          · intro h
            exact (ih _).mpr (fun g hg => h g (List.mem_cons_of_mem _ hg))

theorem encodeFallbackGo_error_msg (enc : CanvasEncoder) (q : ℚ) (all : List Format) :
    ∀ (rest : List Format) (errors : List String),
      (∀ f ∈ rest, tryEncodeCanvas enc f q = none) →
      encodeFallbackGo enc q all rest errors
        = .error (aggregatedEncodingError all
            (errors ++ rest.map (fun f => formatName f ++ ": returned null"))) := by
  intro rest
  induction rest with
  | nil => intro errors _; simp [encodeFallbackGo]
  | cons f fr ih =>
      intro errors h
      have htry : tryEncodeCanvas enc f q = none := h f (List.mem_cons_self _ _)
      have hrest : ∀ g ∈ fr, tryEncodeCanvas enc g q = none :=
        fun g hg => h g (List.mem_cons_of_mem _ hg)
      simp only [encodeFallbackGo, htry]
      rw [ih _ hrest]
      simp

/-- C2: for every canvas (encoder oracle), requested format and quality, the
encoding engine returns the result of the first format in the fallback chain
whose encode attempt succeeds; it throws an encoding error if and only if
every format in the chain fails (an attempt that returns no bytes or throws
is a failure, turned into none by tryEncodeCanvas); and when the whole chain
is exhausted the thrown message aggregates one recorded failure per chain
member. -/
theorem encodeCanvasWithFallback_spec (enc : CanvasEncoder) (pref : Format) (q : ℚ) :
    (∀ r, encodeCanvasWithFallback enc pref q = .ok r →
        ∃ pre f post, encodeAttempts pref = pre ++ f :: post
          ∧ tryEncodeCanvas enc f q = some r
          ∧ ∀ g ∈ pre, tryEncodeCanvas enc g q = none)
    ∧ ((∃ e, encodeCanvasWithFallback enc pref q = .error e)
        ↔ ∀ f ∈ encodeAttempts pref, tryEncodeCanvas enc f q = none)
    ∧ ((∀ f ∈ encodeAttempts pref, tryEncodeCanvas enc f q = none) →
        encodeCanvasWithFallback enc pref q
          = .error (aggregatedEncodingError (encodeAttempts pref)
              ((encodeAttempts pref).map (fun f => formatName f ++ ": returned null")))) := by
  refine ⟨?_, ?_, ?_⟩
  · intro r h
    exact encodeFallbackGo_ok_first enc q (encodeAttempts pref) (encodeAttempts pref) [] r h
  · exact encodeFallbackGo_error_iff enc q (encodeAttempts pref) (encodeAttempts pref) []
  · intro h
    have := encodeFallbackGo_error_msg enc q (encodeAttempts pref) (encodeAttempts pref) [] h
    simpa using this

/-- C2 witness: an oracle whose avif and webp codecs throw and whose jpeg
codec produces 10 bytes; requesting avif returns the jpeg result (the first
chain member that succeeds), and an always-throwing oracle makes a jpeg
request fail with the aggregated message. -/
theorem encodeCanvasWithFallback_spec_witness :
    (∃ pre f post,
        encodeAttempts .avif = pre ++ f :: post
        ∧ tryEncodeCanvas (fun f _ => if f = .jpeg then Except.ok 10 else .error "boom") f (1/2)
            = some ⟨10, .jpeg, true⟩
        ∧ ∀ g ∈ pre,
            tryEncodeCanvas (fun f _ => if f = .jpeg then Except.ok 10 else .error "boom") g (1/2)
              = none)
    ∧ encodeCanvasWithFallback (fun _ _ => .error "down") .jpeg 1
        = .error (aggregatedEncodingError (encodeAttempts .jpeg)
            ((encodeAttempts .jpeg).map (fun f => formatName f ++ ": returned null"))) := by
  constructor
  · exact (encodeCanvasWithFallback_spec
      (fun f _ => if f = .jpeg then Except.ok 10 else .error "boom") .avif (1/2)).1
      ⟨10, .jpeg, true⟩ rfl
  · exact (encodeCanvasWithFallback_spec (fun _ _ => .error "down") .jpeg 1).2.2
      (by decide)

/-! ## C1 and C4: the target-size search.  Branch equations for
optimizationLoop, then the encode-call bound, the returned-result
characterisation and the state invariants. -/

theorem optimizationLoop_eq_exit (p : SearchParams) (st : SearchSt) (trace : List PassLog)
    (hIt : ¬ st.iterations < maxAttemptsFor p.format) :
    optimizationLoop p st trace = (finalizeSearch st.bestResult st.lastResult, trace) := by
  rw [optimizationLoop, dif_neg hIt]

theorem optimizationLoop_eq_err (p : SearchParams) (st : SearchSt) (trace : List PassLog)
    (e : String) (hIt : st.iterations < maxAttemptsFor p.format)
    (hRes : encodeCanvasWithFallback (p.ENC st.canvasW st.canvasH) p.format st.currentQ
      = .error e) :
    optimizationLoop p st trace = (.error e, trace ++ [passEntry st (.error e)]) := by
  rw [optimizationLoop, dif_pos hIt]
  split
  · rename_i e2 heq
    rw [hRes] at heq
    cases heq
    rfl
  · rename_i r2 heq
    rw [hRes] at heq
    cases heq

theorem optimizationLoop_eq_accept (p : SearchParams) (st : SearchSt) (trace : List PassLog)
    (r : EncodeResult) (hIt : st.iterations < maxAttemptsFor p.format)
    (hRes : encodeCanvasWithFallback (p.ENC st.canvasW st.canvasH) p.format st.currentQ = .ok r)
    (hAcc : r.blob ≤ p.targetSize ∧
      ((r.blob : ℚ) / (p.targetSize : ℚ) > 85/100 ∨ st.currentQ ≥ st.maxQ - 5/100)) :
    optimizationLoop p st trace = (.ok r, trace ++ [passEntry st (.ok r)]) := by
  rw [optimizationLoop, dif_pos hIt]
  split
  · rename_i e2 heq
    rw [hRes] at heq
    cases heq
  · rename_i r2 heq
    rw [hRes] at heq
    cases heq
    rw [dif_pos hAcc]

theorem optimizationLoop_eq_wasmAccept (p : SearchParams) (st : SearchSt) (trace : List PassLog)
    (r : EncodeResult) (hIt : st.iterations < maxAttemptsFor p.format)
    (hRes : encodeCanvasWithFallback (p.ENC st.canvasW st.canvasH) p.format st.currentQ = .ok r)
    (hAcc : ¬(r.blob ≤ p.targetSize ∧
      ((r.blob : ℚ) / (p.targetSize : ℚ) > 85/100 ∨ st.currentQ ≥ st.maxQ - 5/100)))
    (hWasm : r.blob ≤ p.targetSize ∧
      ((p.format = .avif ∨ p.format = .jxl) ∧ 2 ≤ st.iterations + 1 ∧
        (r.blob : ℚ) / (p.targetSize : ℚ) > 7/10)) :
    optimizationLoop p st trace = (.ok r, trace ++ [passEntry st (.ok r)]) := by
  rw [optimizationLoop, dif_pos hIt]
  split
  · rename_i e2 heq
    rw [hRes] at heq
    cases heq
  · rename_i r2 heq
    rw [hRes] at heq
    cases heq
    rw [dif_neg hAcc, dif_pos hWasm]

theorem optimizationLoop_eq_convBest (p : SearchParams) (st : SearchSt) (trace : List PassLog)
    (r b : EncodeResult) (hIt : st.iterations < maxAttemptsFor p.format)
    (hRes : encodeCanvasWithFallback (p.ENC st.canvasW st.canvasH) p.format st.currentQ = .ok r)
    (hAcc : ¬(r.blob ≤ p.targetSize ∧
      ((r.blob : ℚ) / (p.targetSize : ℚ) > 85/100 ∨ st.currentQ ≥ st.maxQ - 5/100)))
    (hWasm : ¬(r.blob ≤ p.targetSize ∧
      ((p.format = .avif ∨ p.format = .jxl) ∧ 2 ≤ st.iterations + 1 ∧
        (r.blob : ℚ) / (p.targetSize : ℚ) > 7/10)))
    (hConv : bracketMaxAfter p st r.blob - bracketMinAfter p st r.blob < 4/100)
    (hBest : bestAfter p st r = some b) :
    optimizationLoop p st trace = (.ok b, trace ++ [passEntry st (.ok r)]) := by
  rw [optimizationLoop, dif_pos hIt]
  split
  · rename_i e2 heq
    rw [hRes] at heq
    cases heq
  · rename_i r2 heq
    rw [hRes] at heq
    cases heq
    rw [dif_neg hAcc, dif_neg hWasm, dif_pos hConv]
    split
    · rename_i b2 hb2
      rw [hBest] at hb2
      cases hb2
      rfl
    · rename_i hb2
      rw [hBest] at hb2
      cases hb2

theorem optimizationLoop_eq_resizeStop (p : SearchParams) (st : SearchSt) (trace : List PassLog)
    (r : EncodeResult) (hIt : st.iterations < maxAttemptsFor p.format)
    (hRes : encodeCanvasWithFallback (p.ENC st.canvasW st.canvasH) p.format st.currentQ = .ok r)
    (hAcc : ¬(r.blob ≤ p.targetSize ∧
      ((r.blob : ℚ) / (p.targetSize : ℚ) > 85/100 ∨ st.currentQ ≥ st.maxQ - 5/100)))
    (hWasm : ¬(r.blob ≤ p.targetSize ∧
      ((p.format = .avif ∨ p.format = .jxl) ∧ 2 ≤ st.iterations + 1 ∧
        (r.blob : ℚ) / (p.targetSize : ℚ) > 7/10)))
    (hConv : bracketMaxAfter p st r.blob - bracketMinAfter p st r.blob < 4/100)
    (hBest : bestAfter p st r = none)
    (hRC : MAX_RESIZES ≤ st.resizeCount + 1) :
    optimizationLoop p st trace
      = (finalizeSearch none (some r), trace ++ [passEntry st (.ok r)]) := by
  rw [optimizationLoop, dif_pos hIt]
  split
  · rename_i e2 heq
    rw [hRes] at heq
    cases heq
  · rename_i r2 heq
    rw [hRes] at heq
    cases heq
    rw [dif_neg hAcc, dif_neg hWasm, dif_pos hConv]
    split
    · rename_i b2 hb2
      rw [hBest] at hb2
      cases hb2
    · rw [dif_pos hRC]

theorem optimizationLoop_eq_resizeCont (p : SearchParams) (st : SearchSt) (trace : List PassLog)
    (r : EncodeResult) (hIt : st.iterations < maxAttemptsFor p.format)
    (hRes : encodeCanvasWithFallback (p.ENC st.canvasW st.canvasH) p.format st.currentQ = .ok r)
    (hAcc : ¬(r.blob ≤ p.targetSize ∧
      ((r.blob : ℚ) / (p.targetSize : ℚ) > 85/100 ∨ st.currentQ ≥ st.maxQ - 5/100)))
    (hWasm : ¬(r.blob ≤ p.targetSize ∧
      ((p.format = .avif ∨ p.format = .jxl) ∧ 2 ≤ st.iterations + 1 ∧
        (r.blob : ℚ) / (p.targetSize : ℚ) > 7/10)))
    (hConv : bracketMaxAfter p st r.blob - bracketMinAfter p st r.blob < 4/100)
    (hBest : bestAfter p st r = none)
    (hRC : ¬ MAX_RESIZES ≤ st.resizeCount + 1) :
    optimizationLoop p st trace
      = optimizationLoop p (resizedState p st r) (trace ++ [passEntry st (.ok r)]) := by
  rw [optimizationLoop, dif_pos hIt]
  split
  · rename_i e2 heq
    rw [hRes] at heq
    cases heq
  · rename_i r2 heq
    rw [hRes] at heq
    cases heq
    rw [dif_neg hAcc, dif_neg hWasm, dif_pos hConv]
    split
    · rename_i b2 hb2
      rw [hBest] at hb2
      cases hb2
    · rw [dif_neg hRC]

theorem optimizationLoop_eq_bisect (p : SearchParams) (st : SearchSt) (trace : List PassLog)
    (r : EncodeResult) (hIt : st.iterations < maxAttemptsFor p.format)
    (hRes : encodeCanvasWithFallback (p.ENC st.canvasW st.canvasH) p.format st.currentQ = .ok r)
    (hAcc : ¬(r.blob ≤ p.targetSize ∧
      ((r.blob : ℚ) / (p.targetSize : ℚ) > 85/100 ∨ st.currentQ ≥ st.maxQ - 5/100)))
    (hWasm : ¬(r.blob ≤ p.targetSize ∧
      ((p.format = .avif ∨ p.format = .jxl) ∧ 2 ≤ st.iterations + 1 ∧
        (r.blob : ℚ) / (p.targetSize : ℚ) > 7/10)))
    (hConv : ¬ bracketMaxAfter p st r.blob - bracketMinAfter p st r.blob < 4/100) :
    optimizationLoop p st trace
      = optimizationLoop p (bisectState p st r) (trace ++ [passEntry st (.ok r)]) := by
  rw [optimizationLoop, dif_pos hIt]
  split
  · rename_i e2 heq
    rw [hRes] at heq
    cases heq
  · rename_i r2 heq
    rw [hRes] at heq
    cases heq
    rw [dif_neg hAcc, dif_neg hWasm, dif_neg hConv]

theorem optimizationLoop_length_le (p : SearchParams) (st : SearchSt) (trace : List PassLog) :
    (optimizationLoop p st trace).2.length
      ≤ trace.length + (MAX_RESIZES - st.resizeCount) * maxAttemptsFor p.format
        + (maxAttemptsFor p.format - st.iterations) := by
  have hMA : 1 ≤ maxAttemptsFor p.format := by unfold maxAttemptsFor; split <;> norm_num
  induction st, trace using optimizationLoop.induct p with
  | case1 st trace hIt e hRes =>
      rw [optimizationLoop_eq_err p st trace e hIt hRes]
      simp only [List.length_append, List.length_cons, List.length_nil]
      omega
  | case2 st trace hIt r hRes hAcc =>
      rw [optimizationLoop_eq_accept p st trace r hIt hRes hAcc]
      simp only [List.length_append, List.length_cons, List.length_nil]
      omega
  | case3 st trace hIt r hRes hAcc hWasm =>
      rw [optimizationLoop_eq_wasmAccept p st trace r hIt hRes hAcc hWasm]
      simp only [List.length_append, List.length_cons, List.length_nil]
      omega
  | case4 st trace hIt r hRes hAcc hWasm hConv b hBest =>
      rw [optimizationLoop_eq_convBest p st trace r b hIt hRes hAcc hWasm hConv hBest]
      simp only [List.length_append, List.length_cons, List.length_nil]
      omega
  | case5 st trace hIt r hRes hAcc hWasm hConv hBest hRC =>
      rw [optimizationLoop_eq_resizeStop p st trace r hIt hRes hAcc hWasm hConv hBest hRC]
      simp only [List.length_append, List.length_cons, List.length_nil]
      omega
  | case6 st trace hIt r hRes trace1 hAcc hWasm hConv hBest hRC ih =>
      rw [optimizationLoop_eq_resizeCont p st trace r hIt hRes hAcc hWasm hConv hBest hRC]
      unfold trace1 at ih
      simp only [resizedState, List.length_append, List.length_cons, List.length_nil] at ih ⊢
      simp only [MAX_RESIZES] at ih hRC ⊢
      have h2 : st.resizeCount = 0 ∨ st.resizeCount = 1 := by omega
      rcases h2 with h2 | h2 <;> rw [h2] at ih ⊢ <;> omega
  | case7 st trace hIt r hRes trace1 hAcc hWasm hConv ih =>
      rw [optimizationLoop_eq_bisect p st trace r hIt hRes hAcc hWasm hConv]
      unfold trace1 at ih
      simp only [bisectState, List.length_append, List.length_cons, List.length_nil] at ih ⊢
      omega
  | case8 st trace hIt =>
      rw [optimizationLoop_eq_exit p st trace hIt]
      dsimp only
      omega

theorem optimizationLoop_result (p : SearchParams) (st : SearchSt) (trace : List PassLog) :
    (∀ b, st.bestResult = some b →
      b.blob ≤ p.targetSize ∧ ∃ e ∈ trace, e.outcome = Except.ok b) →
    (st.bestResult = none →
      ∀ e ∈ trace, ∀ x, e.outcome = Except.ok x → p.targetSize < x.blob) →
    (st.lastResult = none → trace = []) →
    (∀ l, st.lastResult = some l →
      ∃ e, trace.getLast? = some e ∧ e.outcome = Except.ok l) →
    ∀ r, (optimizationLoop p st trace).1 = .ok r →
      ((∃ e ∈ (optimizationLoop p st trace).2, ∃ x, e.outcome = Except.ok x ∧ x.blob ≤ p.targetSize) →
        r.blob ≤ p.targetSize ∧ ∃ e ∈ (optimizationLoop p st trace).2, e.outcome = Except.ok r)
      ∧ ((∀ e ∈ (optimizationLoop p st trace).2, ∀ x, e.outcome = Except.ok x → p.targetSize < x.blob) →
        ∃ e, (optimizationLoop p st trace).2.getLast? = some e ∧ e.outcome = Except.ok r) := by
  induction st, trace using optimizationLoop.induct p with
  | case1 st trace hIt e hRes =>
      intro h1 h2 h3 h4 r2 hr2
      rw [optimizationLoop_eq_err p st trace e hIt hRes] at hr2
      simp at hr2
  | case2 st trace hIt r hRes hAcc =>
      intro h1 h2 h3 h4 r2 hr2
      rw [optimizationLoop_eq_accept p st trace r hIt hRes hAcc] at hr2 ⊢
      dsimp only at hr2
      cases hr2
      constructor
      · intro _
        exact ⟨hAcc.1, passEntry st (Except.ok r), by simp, rfl⟩
      · intro _
        exact ⟨passEntry st (Except.ok r), by simp [List.getLast?_concat], rfl⟩
  | case3 st trace hIt r hRes hAcc hWasm =>
      intro h1 h2 h3 h4 r2 hr2
      rw [optimizationLoop_eq_wasmAccept p st trace r hIt hRes hAcc hWasm] at hr2 ⊢
      dsimp only at hr2
      cases hr2
      constructor
      · intro _
        exact ⟨hWasm.1, passEntry st (Except.ok r), by simp, rfl⟩
      · intro _
        exact ⟨passEntry st (Except.ok r), by simp [List.getLast?_concat], rfl⟩
  | case4 st trace hIt r hRes hAcc hWasm hConv b hBest =>
      intro h1 h2 h3 h4 r2 hr2
      rw [optimizationLoop_eq_convBest p st trace r b hIt hRes hAcc hWasm hConv hBest] at hr2 ⊢
      dsimp only at hr2
      cases hr2
      by_cases hsz : r.blob ≤ p.targetSize
      · have hbr : r = b := by simpa [bestAfter, hsz] using hBest
        rw [← hbr]
        constructor
        · intro _
          exact ⟨hsz, passEntry st (Except.ok r), by simp, rfl⟩
        · intro _
          exact ⟨passEntry st (Except.ok r), by simp [List.getLast?_concat], rfl⟩
      · have hstb : st.bestResult = some b := by simpa [bestAfter, hsz] using hBest
        obtain ⟨hble, e, he, hout⟩ := h1 b hstb
        constructor
        · intro _
          exact ⟨hble, e, List.mem_append_left _ he, hout⟩
        · intro hall
          exact absurd hble (by
            have := hall e (List.mem_append_left _ he) b hout
            omega)
  | case5 st trace hIt r hRes hAcc hWasm hConv hBest hRC =>
      intro h1 h2 h3 h4 r2 hr2
      rw [optimizationLoop_eq_resizeStop p st trace r hIt hRes hAcc hWasm hConv hBest hRC] at hr2 ⊢
      by_cases hsz : r.blob ≤ p.targetSize
      · exact absurd hBest (by simp [bestAfter, hsz])
      · have hstb : st.bestResult = none := by simpa [bestAfter, hsz] using hBest
        have hr2r : r = r2 := by simpa [finalizeSearch] using hr2
        cases hr2r
        constructor
        · intro hex
          obtain ⟨e, he, x, hx, hxle⟩ := hex
          rcases List.mem_append.mp he with he2 | he2
          · exact absurd hxle (by have := h2 hstb e he2 x hx; omega)
          · have her : e = passEntry st (Except.ok r) := by simpa using he2
            subst her
            have hxr : r = x := by simpa [passEntry] using hx
            cases hxr
            exact absurd hxle (by omega)
        · intro _
          exact ⟨passEntry st (Except.ok r), by simp [List.getLast?_concat], rfl⟩
  | case6 st trace hIt r hRes trace1 hAcc hWasm hConv hBest hRC ih =>
      intro h1 h2 h3 h4
      unfold trace1 at ih
      by_cases hsz : r.blob ≤ p.targetSize
      · exact absurd hBest (by simp [bestAfter, hsz])
      · have hstb : st.bestResult = none := by simpa [bestAfter, hsz] using hBest
        rw [optimizationLoop_eq_resizeCont p st trace r hIt hRes hAcc hWasm hConv hBest hRC]
        apply ih
        · intro b hb
          simp [resizedState] at hb
        · intro _ e he x hx
          rcases List.mem_append.mp he with he2 | he2
          · exact h2 hstb e he2 x hx
          · have her : e = passEntry st (Except.ok r) := by simpa using he2
            subst her
            have hxr : r = x := by simpa [passEntry] using hx
            cases hxr
            omega
        · intro hl
          simp [resizedState] at hl
        · intro l hl
          have hlr : l = r := by
            have : (resizedState p st r).lastResult = some r := by simp [resizedState]
            rw [this] at hl
            exact (Option.some.inj hl).symm
          subst hlr
          exact ⟨passEntry st (Except.ok l), by simp [List.getLast?_concat], rfl⟩
  | case7 st trace hIt r hRes trace1 hAcc hWasm hConv ih =>
      intro h1 h2 h3 h4
      unfold trace1 at ih
      rw [optimizationLoop_eq_bisect p st trace r hIt hRes hAcc hWasm hConv]
      apply ih
      · intro b hb
        have hb2 : bestAfter p st r = some b := by simpa [bisectState] using hb
        by_cases hsz : r.blob ≤ p.targetSize
        · have hbr : r = b := by simpa [bestAfter, hsz] using hb2
          subst hbr
          exact ⟨hsz, passEntry st (Except.ok r), by simp, rfl⟩
        · have hstb : st.bestResult = some b := by simpa [bestAfter, hsz] using hb2
          obtain ⟨hble, e, he, hout⟩ := h1 b hstb
          exact ⟨hble, e, List.mem_append_left _ he, hout⟩
      · intro hb e he x hx
        have hb2 : bestAfter p st r = none := by simpa [bisectState] using hb
        by_cases hsz : r.blob ≤ p.targetSize
        · exact absurd hb2 (by simp [bestAfter, hsz])
        · have hstb : st.bestResult = none := by simpa [bestAfter, hsz] using hb2
          rcases List.mem_append.mp he with he2 | he2
          · exact h2 hstb e he2 x hx
          · have her : e = passEntry st (Except.ok r) := by simpa using he2
            subst her
            have hxr : r = x := by simpa [passEntry] using hx
            cases hxr
            omega
      · intro hl
        simp [bisectState] at hl
      · intro l hl
        have hlr : l = r := by
          have : (bisectState p st r).lastResult = some r := by simp [bisectState]
          rw [this] at hl
          exact (Option.some.inj hl).symm
        subst hlr
        exact ⟨passEntry st (Except.ok l), by simp [List.getLast?_concat], rfl⟩
  | case8 st trace hIt =>
      intro h1 h2 h3 h4 r2 hr2
      rw [optimizationLoop_eq_exit p st trace hIt] at hr2 ⊢
      dsimp only at hr2 ⊢
      rcases hbest : st.bestResult with _ | b
      · rcases hlast : st.lastResult with _ | l
        · rw [hbest, hlast] at hr2
          simp [finalizeSearch] at hr2
        · rw [hbest, hlast] at hr2
          have hlr : l = r2 := by simpa [finalizeSearch] using hr2
          cases hlr
          constructor
          · intro hex
            obtain ⟨e, he, x, hx, hxle⟩ := hex
            exact absurd hxle (by have := h2 hbest e he x hx; omega)
          · intro _
            exact h4 r2 hlast
      · rw [hbest] at hr2
        have hbr : b = r2 := by simpa [finalizeSearch] using hr2
        cases hbr
        obtain ⟨hble, e, he, hout⟩ := h1 r2 hbest
        constructor
        · intro _
          exact ⟨hble, e, he, hout⟩
        · intro hall
          exact absurd hble (by have := hall e he r2 hout; omega)

theorem resizeImage_pos (srcW srcH : ℕ) (maxW maxH : Option ℕ) :
    1 ≤ (resizeImage srcW srcH maxW maxH).1 ∧ 1 ≤ (resizeImage srcW srcH maxW maxH).2 := by
  unfold resizeImage
  rcases maxW with _ | mw <;> rcases maxH with _ | mh <;>
    · dsimp only
      first
      | (split_ifs <;> simp)
      | simp

theorem initialQuality_bounds (targetSize totalPixels : ℕ) :
    MIN_QUALITY ≤ initialQuality targetSize totalPixels
    ∧ initialQuality targetSize totalPixels ≤ 95/100 := by
  unfold initialQuality MIN_QUALITY
  split_ifs <;> norm_num

theorem optimizationLoop_invariants (p : SearchParams) (st : SearchSt) (trace : List PassLog) :
    st.minQ ≤ st.currentQ → st.currentQ ≤ st.maxQ →
    1 ≤ st.canvasW → 1 ≤ st.canvasH →
    (1 ≤ st.resizeCount → 100 ≤ st.currentW ∧ 100 ≤ st.currentH) →
    (∀ e ∈ trace, e.minQ ≤ e.currentQ ∧ e.currentQ ≤ e.maxQ
      ∧ 1 ≤ e.canvasW ∧ 1 ≤ e.canvasH
      ∧ (1 ≤ e.resizeCount → 100 ≤ e.stateW ∧ 100 ≤ e.stateH)) →
    ∀ e ∈ (optimizationLoop p st trace).2,
      e.minQ ≤ e.currentQ ∧ e.currentQ ≤ e.maxQ
      ∧ 1 ≤ e.canvasW ∧ 1 ≤ e.canvasH
      ∧ (1 ≤ e.resizeCount → 100 ≤ e.stateW ∧ 100 ≤ e.stateH) := by
  induction st, trace using optimizationLoop.induct p with
  | case1 st trace hIt e hRes =>
      intro q1 q2 c1 c2 rc ht e2 he2
      rw [optimizationLoop_eq_err p st trace e hIt hRes] at he2
      rcases List.mem_append.mp he2 with h | h
      · exact ht e2 h
      · have he3 : e2 = passEntry st (Except.error e) := by simpa using h
        subst he3
        exact ⟨q1, q2, c1, c2, rc⟩
  | case2 st trace hIt r hRes hAcc =>
      intro q1 q2 c1 c2 rc ht e2 he2
      rw [optimizationLoop_eq_accept p st trace r hIt hRes hAcc] at he2
      rcases List.mem_append.mp he2 with h | h
      · exact ht e2 h
      · have he3 : e2 = passEntry st (Except.ok r) := by simpa using h
        subst he3
        exact ⟨q1, q2, c1, c2, rc⟩
  | case3 st trace hIt r hRes hAcc hWasm =>
      intro q1 q2 c1 c2 rc ht e2 he2
      rw [optimizationLoop_eq_wasmAccept p st trace r hIt hRes hAcc hWasm] at he2
      rcases List.mem_append.mp he2 with h | h
      · exact ht e2 h
      · have he3 : e2 = passEntry st (Except.ok r) := by simpa using h
        subst he3
        exact ⟨q1, q2, c1, c2, rc⟩
  | case4 st trace hIt r hRes hAcc hWasm hConv b hBest =>
      intro q1 q2 c1 c2 rc ht e2 he2
      rw [optimizationLoop_eq_convBest p st trace r b hIt hRes hAcc hWasm hConv hBest] at he2
      rcases List.mem_append.mp he2 with h | h
      · exact ht e2 h
      · have he3 : e2 = passEntry st (Except.ok r) := by simpa using h
        subst he3
        exact ⟨q1, q2, c1, c2, rc⟩
  | case5 st trace hIt r hRes hAcc hWasm hConv hBest hRC =>
      intro q1 q2 c1 c2 rc ht e2 he2
      rw [optimizationLoop_eq_resizeStop p st trace r hIt hRes hAcc hWasm hConv hBest hRC] at he2
      rcases List.mem_append.mp he2 with h | h
      · exact ht e2 h
      · have he3 : e2 = passEntry st (Except.ok r) := by simpa using h
        subst he3
        exact ⟨q1, q2, c1, c2, rc⟩
  | case6 st trace hIt r hRes trace1 hAcc hWasm hConv hBest hRC ih =>
      intro q1 q2 c1 c2 rc ht
      unfold trace1 at ih
      rw [optimizationLoop_eq_resizeCont p st trace r hIt hRes hAcc hWasm hConv hBest hRC]
      apply ih
      · simp [resizedState, MIN_QUALITY]
        norm_num
      · simp [resizedState]
        norm_num
      · simpa [resizedState] using (resizeImage_pos st.canvasW st.canvasH _ _).1
      · simpa [resizedState] using (resizeImage_pos st.canvasW st.canvasH _ _).2
      · intro _
        constructor <;> simp [resizedState]
      · intro e2 he2
        rcases List.mem_append.mp he2 with h | h
        · exact ht e2 h
        · have he3 : e2 = passEntry st (Except.ok r) := by simpa using h
          subst he3
          exact ⟨q1, q2, c1, c2, rc⟩
  | case7 st trace hIt r hRes trace1 hAcc hWasm hConv ih =>
      intro q1 q2 c1 c2 rc ht
      unfold trace1 at ih
      rw [optimizationLoop_eq_bisect p st trace r hIt hRes hAcc hWasm hConv]
      have hlt : bracketMinAfter p st r.blob ≤ bracketMaxAfter p st r.blob := by
        have h4 : (4 : ℚ)/100 ≤ bracketMaxAfter p st r.blob - bracketMinAfter p st r.blob :=
          le_of_not_lt hConv
        linarith
      apply ih
      · simp only [bisectState]
        linarith
      · simp only [bisectState]
        linarith
      · simpa [bisectState] using c1
      · simpa [bisectState] using c2
      · intro hrc
        have hrc2 : 1 ≤ st.resizeCount := by simpa [bisectState] using hrc
        simpa [bisectState] using rc hrc2
      · intro e2 he2
        rcases List.mem_append.mp he2 with h | h
        · exact ht e2 h
        · have he3 : e2 = passEntry st (Except.ok r) := by simpa using h
          subst he3
          exact ⟨q1, q2, c1, c2, rc⟩
  | case8 st trace hIt =>
      intro q1 q2 c1 c2 rc ht e2 he2
      rw [optimizationLoop_eq_exit p st trace hIt] at he2
      exact ht e2 he2

/-- C1: for every input image, target byte size, dimension bounds and
requested format (and for every codec oracle and sqrt routine), the
target-size search performs at most MAX_ATTEMPTS x (MAX_RESIZES + 1) engine
encode calls before returning, and when it returns a result, that result is
the best-so-far candidate (one whose size was ≤ target) whenever any such
candidate was ever produced, and otherwise the last attempted encode result,
which may exceed the target. -/
theorem targetSizeSearch_bound_and_result (p : SearchParams) (srcW srcH : ℕ)
    (maxW maxH : Option ℕ) :
    (processToTargetSize p srcW srcH maxW maxH).2.length
      ≤ maxAttemptsFor p.format * (MAX_RESIZES + 1)
    ∧ (∀ r, (processToTargetSize p srcW srcH maxW maxH).1 = .ok r →
        ((∃ e ∈ (processToTargetSize p srcW srcH maxW maxH).2,
            ∃ x, e.outcome = Except.ok x ∧ x.blob ≤ p.targetSize) →
          r.blob ≤ p.targetSize
          ∧ ∃ e ∈ (processToTargetSize p srcW srcH maxW maxH).2, e.outcome = Except.ok r)
        ∧ ((∀ e ∈ (processToTargetSize p srcW srcH maxW maxH).2,
            ∀ x, e.outcome = Except.ok x → p.targetSize < x.blob) →
          ∃ e, (processToTargetSize p srcW srcH maxW maxH).2.getLast? = some e
            ∧ e.outcome = Except.ok r)) := by
  unfold processToTargetSize
  constructor
  · refine le_trans (optimizationLoop_length_le p _ []) ?_
    have hMA : 1 ≤ maxAttemptsFor p.format := by unfold maxAttemptsFor; split <;> norm_num
    simp only [MAX_RESIZES, List.length_nil]
    omega
  · intro r hr
    exact optimizationLoop_result p _ []
      (by intro b hb; simp at hb)
      (by intro _ e he; simp at he)
      (by intro _; rfl)
      (by intro l hl; simp at hl)
      r hr

theorem searchEval_concrete :
    processToTargetSize
        ⟨fun _ _ => fun _ _ => Except.ok 10000, fun q => q, .jpeg, 10240⟩
        3 1000 none (some 100)
      = (.ok ⟨10000, .jpeg, true⟩,
         [⟨1/20, 95/100, 8/10, 0, 100, 1, 1, 0, .ok ⟨10000, .jpeg, true⟩⟩]) := by
  have hd : initialDims 3 1000 none (some 100) 10240 = (0, 100) := by
    unfold initialDims boundScale jsRoundNat jsRound
    norm_num [Int.floor_eq_iff]
    decide
  have hc : resizeImage 3 1000 (some 0) (some 100) = (1, 1) := by
    unfold resizeImage jsRoundNat jsRound
    norm_num [Int.floor_eq_iff]
  have hq : initialQuality 10240 (0 * 100) = 8/10 := by
    unfold initialQuality
    norm_num
  unfold processToTargetSize
  rw [hd]
  dsimp only
  rw [hc, hq]
  dsimp only
  rw [optimizationLoop_eq_accept
      ⟨fun _ _ => fun _ _ => Except.ok 10000, fun q => q, .jpeg, 10240⟩
      ⟨0, 100, 1, 1, MIN_QUALITY, 95/100, 8/10, 0, 0, none, none⟩
      [] ⟨10000, .jpeg, true⟩ (by simp [maxAttemptsFor]) rfl (by norm_num)]
  norm_num [passEntry, MIN_QUALITY]

/-- C1 witness: a concrete search (3x1000 source, maxH = 100, target 10240,
an oracle always producing 10000 bytes) returns the candidate produced on
the first pass, which is within the target. -/
theorem targetSizeSearch_bound_and_result_witness :
    (processToTargetSize
        ⟨fun _ _ => fun _ _ => Except.ok 10000, fun q => q, .jpeg, 10240⟩
        3 1000 none (some 100)).2.length
      ≤ maxAttemptsFor .jpeg * (MAX_RESIZES + 1)
    ∧ (⟨10000, .jpeg, true⟩ : EncodeResult).blob ≤ 10240
    ∧ ∃ e ∈ (processToTargetSize
        ⟨fun _ _ => fun _ _ => Except.ok 10000, fun q => q, .jpeg, 10240⟩
        3 1000 none (some 100)).2, e.outcome = Except.ok ⟨10000, .jpeg, true⟩ := by
  have h := targetSizeSearch_bound_and_result
      ⟨fun _ _ => fun _ _ => Except.ok 10000, fun q => q, .jpeg, 10240⟩ 3 1000 none (some 100)
  have h2 := h.2 ⟨10000, .jpeg, true⟩ (by rw [searchEval_concrete])
  have h3 := h2.1 (by
    rw [searchEval_concrete]
    exact ⟨⟨1/20, 95/100, 8/10, 0, 100, 1, 1, 0, .ok ⟨10000, .jpeg, true⟩⟩, by simp,
      ⟨10000, .jpeg, true⟩, rfl, by norm_num⟩)
  exact ⟨h.1, h3.1, h3.2⟩

/-- C4 counterexample: with a 3x1000 source and a height bound of 100, the
initial aspect-ratio constraint computes currentW = round(3 x (100/1000)) =
0, so the working width recorded at the first encode call is 0: the search
state does not satisfy width ≥ 1 (the canvas, floored separately, is 1x1). -/
theorem searchState_width_zero_counterexample :
    ∃ e ∈ (processToTargetSize
        ⟨fun _ _ => fun _ _ => Except.ok 10000, fun q => q, .jpeg, 10240⟩
        3 1000 none (some 100)).2, ¬ 1 ≤ e.stateW := by
  rw [searchEval_concrete]
  exact ⟨⟨1/20, 95/100, 8/10, 0, 100, 1, 1, 0, .ok ⟨10000, .jpeg, true⟩⟩, by simp, by norm_num⟩

/-- C4 amended: at every encode call of a target-size search the quality
bracket satisfies minQuality ≤ currentQuality ≤ maxQuality, the canvas being
encoded has width and height ≥ 1 (resizeImage floors them), and after a
resize escape (resizeCount ≥ 1) the working width and height are floored at
100.  The working width/height state variables themselves are not always
≥ 1: the initial aspect-ratio constraint can round one of them to 0, as the
counterexample shows; the state is local to the search and discarded at loop
exit. -/
theorem targetSizeSearch_invariants (p : SearchParams) (srcW srcH : ℕ)
    (maxW maxH : Option ℕ) :
    ∀ e ∈ (processToTargetSize p srcW srcH maxW maxH).2,
      e.minQ ≤ e.currentQ ∧ e.currentQ ≤ e.maxQ
      ∧ 1 ≤ e.canvasW ∧ 1 ≤ e.canvasH
      ∧ (1 ≤ e.resizeCount → 100 ≤ e.stateW ∧ 100 ≤ e.stateH) := by
  unfold processToTargetSize
  refine optimizationLoop_invariants p _ [] ?_ ?_ ?_ ?_ ?_ ?_
  · exact (initialQuality_bounds p.targetSize _).1
  · exact (initialQuality_bounds p.targetSize _).2
  · exact (resizeImage_pos srcW srcH (some (initialDims srcW srcH maxW maxH p.targetSize).1)
      (some (initialDims srcW srcH maxW maxH p.targetSize).2)).1
  · exact (resizeImage_pos srcW srcH (some (initialDims srcW srcH maxW maxH p.targetSize).1)
      (some (initialDims srcW srcH maxW maxH p.targetSize).2)).2
  · intro h
    exact absurd h (by simp)
  · intro e he
    simp at he

/-- C4 witness: the invariants evaluated on the first pass of the concrete
run used above. -/
theorem targetSizeSearch_invariants_witness :
    (⟨1/20, 95/100, 8/10, 0, 100, 1, 1, 0,
        .ok ⟨10000, .jpeg, true⟩⟩ : PassLog).minQ
        ≤ (⟨1/20, 95/100, 8/10, 0, 100, 1, 1, 0, .ok ⟨10000, .jpeg, true⟩⟩ : PassLog).currentQ
    ∧ (⟨1/20, 95/100, 8/10, 0, 100, 1, 1, 0, .ok ⟨10000, .jpeg, true⟩⟩ : PassLog).currentQ
        ≤ (⟨1/20, 95/100, 8/10, 0, 100, 1, 1, 0, .ok ⟨10000, .jpeg, true⟩⟩ : PassLog).maxQ
    ∧ 1 ≤ (⟨1/20, 95/100, 8/10, 0, 100, 1, 1, 0, .ok ⟨10000, .jpeg, true⟩⟩ : PassLog).canvasW
    ∧ 1 ≤ (⟨1/20, 95/100, 8/10, 0, 100, 1, 1, 0, .ok ⟨10000, .jpeg, true⟩⟩ : PassLog).canvasH
    ∧ (1 ≤ (⟨1/20, 95/100, 8/10, 0, 100, 1, 1, 0, .ok ⟨10000, .jpeg, true⟩⟩ : PassLog).resizeCount →
        100 ≤ (⟨1/20, 95/100, 8/10, 0, 100, 1, 1, 0, .ok ⟨10000, .jpeg, true⟩⟩ : PassLog).stateW
        ∧ 100 ≤ (⟨1/20, 95/100, 8/10, 0, 100, 1, 1, 0, .ok ⟨10000, .jpeg, true⟩⟩ : PassLog).stateH) :=
  targetSizeSearch_invariants
    ⟨fun _ _ => fun _ _ => Except.ok 10000, fun q => q, .jpeg, 10240⟩ 3 1000 none (some 100)
    ⟨1/20, 95/100, 8/10, 0, 100, 1, 1, 0, .ok ⟨10000, .jpeg, true⟩⟩
    (by rw [searchEval_concrete]; simp)

/-! ## C6: the concurrency limiter -/

theorem promiseAll_ok {ε α : Type} :
    ∀ (ts : List (Except ε α)) (l : List α), promiseAll ts = .ok l → ts = l.map Except.ok := by
  intro ts
  induction ts with
  | nil =>
      intro l h
      simp only [promiseAll] at h
      cases h
      rfl
  | cons t rest ih =>
      intro l h
      match t with
      | .error e => simp [promiseAll] at h
      | .ok a =>
          simp only [promiseAll] at h
          match hrest : promiseAll rest with
          | .error e => rw [hrest] at h; simp [Except.map] at h
          | .ok l2 =>
              rw [hrest] at h
              simp only [Except.map] at h
              cases h
              simp [ih l2 hrest]

theorem promiseAll_map_ok {ε α : Type} :
    ∀ (vals : List α), promiseAll (vals.map (Except.ok : α → Except ε α)) = .ok vals := by
  intro vals
  induction vals with
  | nil => rfl
  | cons v rest ih => simp [promiseAll, ih, Except.map]

theorem promiseAll_error_mem {ε α : Type} :
    ∀ (ts : List (Except ε α)) (e : ε), promiseAll ts = .error e → Except.error e ∈ ts := by
  intro ts
  induction ts with
  | nil => intro e h; simp [promiseAll] at h
  | cons t rest ih =>
      intro e h
      match t with
      | .error e2 =>
          simp only [promiseAll] at h
          cases h
          exact List.mem_cons_self _ _
      | .ok a =>
          simp only [promiseAll] at h
          match hrest : promiseAll rest with
          | .error e2 =>
              rw [hrest] at h
              simp only [Except.map] at h
              cases h
              exact List.mem_cons_of_mem _ (ih _ hrest)
          | .ok l2 => rw [hrest] at h; simp [Except.map] at h

theorem drainAll_none_of_all_ok {ε α : Type} (sched : ℕ → ℕ) :
    ∀ (t : ℕ) (ex : List (ℕ × Except ε α)),
      (∀ pr ∈ ex, ∃ a, pr.2 = Except.ok a) → drainAll sched t ex = none := by
  intro t ex
  induction t, ex using drainAll.induct sched with
  | case1 t => intro _; rw [drainAll]
  | case2 t e rest err hget =>
      intro hall
      obtain ⟨a, ha⟩ := hall _ (List.get_mem (e :: rest) _ _)
      rw [hget] at ha
      cases ha
  | case3 t e rest a hget ih =>
      intro hall
      rw [drainAll]
      rw [hget]
      exact ih (fun pr hpr =>
        hall pr ((List.eraseIdx_sublist (e :: rest) (sched t % (e :: rest).length)).subset hpr))

theorem drainAll_some_mem {ε α : Type} (sched : ℕ → ℕ) :
    ∀ (t : ℕ) (ex : List (ℕ × Except ε α)) (err : ε),
      drainAll sched t ex = some err → ∃ pr ∈ ex, pr.2 = Except.error err := by
  intro t ex
  induction t, ex using drainAll.induct sched with
  | case1 t =>
      intro err h
      rw [drainAll] at h
      cases h
  | case2 t e rest err2 hget =>
      intro err h
      rw [drainAll] at h
      rw [hget] at h
      cases h
      exact ⟨_, List.get_mem (e :: rest) _ _, hget⟩
  | case3 t e rest a hget ih =>
      intro err h
      rw [drainAll] at h
      rw [hget] at h
      obtain ⟨pr, hpr, hpr2⟩ := ih err h
      exact ⟨pr,
        (List.eraseIdx_sublist (e :: rest) (sched t % (e :: rest).length)).subset hpr, hpr2⟩

theorem runLoop_result_ok {ε α : Type} (sched : ℕ → ℕ) (tasks : List (Except ε α)) (limit : ℕ) :
    ∀ (pending executing : List (ℕ × Except ε α)) (t : ℕ) (starts : List ℕ) (maxIF : ℕ)
      (l : List α),
      (runLoop sched tasks limit pending executing t starts maxIF).1 = Except.ok l →
      tasks = l.map Except.ok := by
  intro pending
  induction pending with
  | nil =>
      intro executing t starts maxIF l h
      simp only [runLoop] at h
      match hd : drainAll sched t executing with
      | some e => rw [hd] at h; simp at h
      | none =>
          rw [hd] at h
          simp only at h
          exact promiseAll_ok tasks l h
  | cons task rest ih =>
      intro executing t starts maxIF l h
      simp only [runLoop] at h
      by_cases hlim : limit ≤ (executing ++ [task]).length
      · rw [if_pos hlim] at h
        split at h
        · simp at h
        · exact ih _ _ _ _ l h
      · rw [if_neg hlim] at h
        exact ih _ _ _ _ l h

theorem runLoop_all_ok {ε α : Type} (sched : ℕ → ℕ) (tasks : List (Except ε α)) (limit : ℕ) :
    ∀ (pending executing : List (ℕ × Except ε α)) (t : ℕ) (starts : List ℕ) (maxIF : ℕ),
      (∀ pr ∈ pending, ∃ a, pr.2 = Except.ok a) →
      (∀ pr ∈ executing, ∃ a, pr.2 = Except.ok a) →
      (runLoop sched tasks limit pending executing t starts maxIF).1 = promiseAll tasks := by
  intro pending
  induction pending with
  | nil =>
      intro executing t starts maxIF _ hex
      simp only [runLoop]
      rw [drainAll_none_of_all_ok sched t executing hex]
  | cons task rest ih =>
      intro executing t starts maxIF hpend hex
      have hex1 : ∀ pr ∈ executing ++ [task], ∃ a, pr.2 = Except.ok a := by
        intro pr hpr
        rcases List.mem_append.1 hpr with h1 | h1
        · exact hex pr h1
        · rw [List.mem_singleton.1 h1]
          exact hpend task (List.mem_cons_self _ _)
      have hpend1 : ∀ pr ∈ rest, ∃ a, pr.2 = Except.ok a :=
        fun pr hpr => hpend pr (List.mem_cons_of_mem _ hpr)
      simp only [runLoop]
      by_cases hlim : limit ≤ (executing ++ [task]).length
      · rw [if_pos hlim]
        split
        · next e heq =>
            obtain ⟨a, ha⟩ := hex1 _ (List.get_mem (executing ++ [task])
              (sched t % (executing ++ [task]).length) (Nat.mod_lt _ (by simp)))
            rw [heq] at ha
            simp at ha
        · next a heq =>
            exact ih _ _ _ _ hpend1
              (fun pr hpr => hex1 pr ((List.eraseIdx_sublist _ _).subset hpr))
      · rw [if_neg hlim]
        exact ih _ _ _ _ hpend1 hex1

theorem runLoop_error_mem {ε α : Type} (sched : ℕ → ℕ) (tasks : List (Except ε α)) (limit : ℕ) :
    ∀ (pending executing : List (ℕ × Except ε α)) (t : ℕ) (starts : List ℕ) (maxIF : ℕ)
      (e : ε),
      (∀ pr ∈ pending, pr.2 ∈ tasks) →
      (∀ pr ∈ executing, pr.2 ∈ tasks) →
      (runLoop sched tasks limit pending executing t starts maxIF).1 = Except.error e →
      Except.error e ∈ tasks := by
  intro pending
  induction pending with
  | nil =>
      intro executing t starts maxIF e _ hex h
      simp only [runLoop] at h
      match hd : drainAll sched t executing with
      | some e2 =>
          rw [hd] at h
          simp only [Except.error.injEq] at h
          cases h
          obtain ⟨pr, hpr, hpr2⟩ := drainAll_some_mem sched t executing _ hd
          have hmem := hex pr hpr
          rw [hpr2] at hmem
          exact hmem
      | none =>
          rw [hd] at h
          simp only at h
          exact promiseAll_error_mem tasks e h
  | cons task rest ih =>
      intro executing t starts maxIF e hpend hex h
      have hex1 : ∀ pr ∈ executing ++ [task], pr.2 ∈ tasks := by
        intro pr hpr
        rcases List.mem_append.1 hpr with h1 | h1
        · exact hex pr h1
        · rw [List.mem_singleton.1 h1]
          exact hpend task (List.mem_cons_self _ _)
      have hpend1 : ∀ pr ∈ rest, pr.2 ∈ tasks :=
        fun pr hpr => hpend pr (List.mem_cons_of_mem _ hpr)
      simp only [runLoop] at h
      by_cases hlim : limit ≤ (executing ++ [task]).length
      · rw [if_pos hlim] at h
        split at h
        · next e2 heq =>
            simp only [Except.error.injEq] at h
            cases h
            have hmem := hex1 _ (List.get_mem (executing ++ [task])
              (sched t % (executing ++ [task]).length) (Nat.mod_lt _ (by simp)))
            rw [heq] at hmem
            exact hmem
        · next a heq =>
            exact ih _ _ _ _ e hpend1
              (fun pr hpr => hex1 pr ((List.eraseIdx_sublist _ _).subset hpr)) h
      · rw [if_neg hlim] at h
        exact ih _ _ _ _ e hpend1 hex1 h

theorem runLoop_starts {ε α : Type} (sched : ℕ → ℕ) (tasks : List (Except ε α)) (limit : ℕ) :
    ∀ (pending executing : List (ℕ × Except ε α)) (t : ℕ) (starts : List ℕ) (maxIF : ℕ),
      ∃ j, j ≤ pending.length ∧
        (runLoop sched tasks limit pending executing t starts maxIF).2.1
          = starts ++ (pending.map Prod.fst).take j ∧
        (∀ l, (runLoop sched tasks limit pending executing t starts maxIF).1 = Except.ok l →
          j = pending.length) := by
  intro pending
  induction pending with
  | nil =>
      intro executing t starts maxIF
      exact ⟨0, Nat.le_refl 0, by simp [runLoop], fun _ _ => rfl⟩
  | cons task rest ih =>
      intro executing t starts maxIF
      simp only [runLoop]
      by_cases hlim : limit ≤ (executing ++ [task]).length
      · rw [if_pos hlim]
        split
        · next e heq =>
            refine ⟨1, by simp, by simp, ?_⟩
            intro l h
            simp at h
        · next a heq =>
            obtain ⟨j, hj, hst, hok⟩ :=
              ih ((executing ++ [task]).eraseIdx (sched t % (executing ++ [task]).length))
                (t + 1) (starts ++ [task.1]) (max maxIF (executing ++ [task]).length)
            refine ⟨j + 1, by simpa using Nat.succ_le_succ hj, ?_, ?_⟩
            · rw [hst]; simp
            · intro l h
              rw [hok l h]
              simp
      · rw [if_neg hlim]
        obtain ⟨j, hj, hst, hok⟩ :=
          ih (executing ++ [task]) t (starts ++ [task.1]) (max maxIF (executing ++ [task]).length)
        refine ⟨j + 1, by simpa using Nat.succ_le_succ hj, ?_, ?_⟩
        · rw [hst]; simp
        · intro l h
          rw [hok l h]
          simp

theorem runLoop_inflight {ε α : Type} (sched : ℕ → ℕ) (tasks : List (Except ε α)) (limit : ℕ) :
    ∀ (pending executing : List (ℕ × Except ε α)) (t : ℕ) (starts : List ℕ) (maxIF : ℕ),
      1 ≤ limit → executing.length < limit → maxIF ≤ limit →
      (runLoop sched tasks limit pending executing t starts maxIF).2.2 ≤ limit := by
  intro pending
  induction pending with
  | nil =>
      intro executing t starts maxIF _ _ hm
      exact hm
  | cons task rest ih =>
      intro executing t starts maxIF hl hx hm
      have hx1 : (executing ++ [task]).length ≤ limit := by
        simp only [List.length_append, List.length_singleton]
        omega
      have hm1 : max maxIF (executing ++ [task]).length ≤ limit := max_le hm hx1
      simp only [runLoop]
      by_cases hlim : limit ≤ (executing ++ [task]).length
      · rw [if_pos hlim]
        split
        · exact hm1
        · refine ih _ _ _ _ hl ?_ hm1
          have hjlt : sched t % (executing ++ [task]).length < (executing ++ [task]).length :=
            Nat.mod_lt _ (by simp)
          rw [List.length_eraseIdx]
          simp only [if_pos hjlt]
          omega
      · rw [if_neg hlim]
        exact ih _ _ _ _ hl (Nat.lt_of_not_le hlim) hm1

/-- **C6**: for every list of task outcomes, every positive limit and every adversarial
settlement schedule, runWithConcurrency starts tasks in submission order (the start log is
an initial segment List.range k of the submission indices, complete when the run resolves),
never has more than limit tasks in flight simultaneously, resolves with all results in
original submission order exactly when every task fulfills, and propagates any rejection:
an error result is the outcome of one of the submitted tasks. -/
theorem runWithConcurrency_spec {ε α : Type} (tasks : List (Except ε α)) (limit : ℕ)
    (sched : ℕ → ℕ) (hlim : 1 ≤ limit) :
    (∃ k, k ≤ tasks.length ∧
        (runWithConcurrency tasks limit sched).2.1 = List.range k ∧
        (∀ l, (runWithConcurrency tasks limit sched).1 = Except.ok l → k = tasks.length)) ∧
    (runWithConcurrency tasks limit sched).2.2 ≤ limit ∧
    (∀ l, (runWithConcurrency tasks limit sched).1 = Except.ok l → tasks = l.map Except.ok) ∧
    (∀ vals, tasks = vals.map Except.ok →
        (runWithConcurrency tasks limit sched).1 = Except.ok vals) ∧
    (∀ e, (runWithConcurrency tasks limit sched).1 = Except.error e →
        Except.error e ∈ tasks) := by
  simp only [runWithConcurrency]
  refine ⟨?_, ?_, ?_, ?_, ?_⟩
  · obtain ⟨j, hj, hst, hok⟩ := runLoop_starts sched tasks limit tasks.enum [] 0 [] 0
    rw [List.enum_length] at hj
    refine ⟨j, hj, ?_, ?_⟩
    · rw [hst, List.enum_map_fst, List.take_range, Nat.min_eq_left hj, List.nil_append]
    · intro l hl
      rw [hok l hl, List.enum_length]
  · exact runLoop_inflight sched tasks limit tasks.enum [] 0 [] 0 hlim hlim (Nat.zero_le _)
  · intro l hl
    exact runLoop_result_ok sched tasks limit tasks.enum [] 0 [] 0 l hl
  · intro vals hv
    have hpend : ∀ pr ∈ tasks.enum, ∃ a, pr.2 = Except.ok a := by
      intro pr hpr
      have hsnd : pr.2 ∈ tasks := by
        rw [← List.enum_map_snd tasks]
        exact List.mem_map_of_mem Prod.snd hpr
      rw [hv] at hsnd
      obtain ⟨a, _, ha⟩ := List.mem_map.1 hsnd
      exact ⟨a, ha.symm⟩
    have hall := runLoop_all_ok sched tasks limit tasks.enum [] 0 [] 0 hpend
      (fun pr hpr => absurd hpr (List.not_mem_nil pr))
    rw [hall, hv]
    exact promiseAll_map_ok vals
  · intro e he
    have hpend : ∀ pr ∈ tasks.enum, pr.2 ∈ tasks := by
      intro pr hpr
      rw [← List.enum_map_snd tasks]
      exact List.mem_map_of_mem Prod.snd hpr
    exact runLoop_error_mem sched tasks limit tasks.enum [] 0 [] 0 e hpend
      (fun pr hpr => absurd hpr (List.not_mem_nil pr)) he

theorem runWithConcurrency_spec_witness :
    1 ≤ 2 ∧
    (runWithConcurrency [Except.ok 1, Except.ok 2, Except.ok 3] 2 (fun _ => 0)
        : Except Unit (List ℕ) × List ℕ × ℕ).1 = Except.ok [1, 2, 3] :=
  ⟨by decide,
    (runWithConcurrency_spec [Except.ok 1, Except.ok 2, Except.ok 3] 2 (fun _ => 0)
      (by decide)).2.2.2.1 [1, 2, 3] rfl⟩

end ImageOptimizer
